import Mathlib

/-!
# Memory component of OS2 (a3): First-Fit and Best-Fit allocators

Shallow embedding of `src/a3/mem_component.h` and `src/a3/mem_component.cpp`.

* The singly linked list hanging off `head` is a `List MemoryBlock`, in link order.
* A node pointer (`current`, `best_fit`) is the position of the node in that list.
* `process_map` (an `int[1000]`) is a function from process id to the stored value;
  the source indexes it without a range check, so only ids in `0..999` are meaningful
  and the reachability relation below only issues calls with such ids.
* `int` values are `Int`.  In the reachable states sizes never exceed 128 and the node
  counter never exceeds the number of nodes, so no arithmetic of the source can overflow.
* Every operation returns the pair of the C++ return value and the state after the call.
-/

namespace OS2

/-! ## Data model (`mem_component.h`) -/

/-- Node of the block list: `start_address`, `size` and `process_id` (`-1` when free). -/
structure MemoryBlock where
  start_address : Int
  size : Int
  process_id : Int
deriving DecidableEq, Repr

/-- Protected members of `MemoryComponent`: the list at `head`, `process_map`, `process_count`. -/
structure MemoryComponent where
  blocks : List MemoryBlock
  process_map : Int → Int
  process_count : Int

/-- Constant `TOTAL_MEMORY_UNITS` of `MemoryComponent`. -/
def TOTAL_MEMORY_UNITS : Int := 128

/-- State built by both constructors: one free block over the whole memory, every
`process_map` entry set to `-1` by `memset`, `process_count` zero. -/
def MemoryComponent.fresh : MemoryComponent :=
  { blocks := [{ start_address := 0, size := TOTAL_MEMORY_UNITS, process_id := -1 }]
    process_map := fun _ => -1
    process_count := 0 }

/-! ## `merge_adjacent_free_blocks` -/

/-- Loop of `merge_adjacent_free_blocks`: `current` is the node under the cursor, the list
argument is the chain `current->next`.  When both `current` and its successor are free the
successor is absorbed and the cursor stays; otherwise the cursor advances. -/
def mergeLoop (current : MemoryBlock) : List MemoryBlock → List MemoryBlock
  | [] => [current]
  | next :: rest =>
    if current.process_id = -1 ∧ next.process_id = -1 then
      mergeLoop { current with size := current.size + next.size } rest
    else
      current :: mergeLoop next rest

/-- The block list after `MemoryComponent::merge_adjacent_free_blocks`. -/
def merge_adjacent_free_blocks : List MemoryBlock → List MemoryBlock
  | [] => []
  | head :: rest => mergeLoop head rest

/-! ## Allocation -/

/-- The nodes that replace a chosen free node `current`: the node itself with the new owner
on an exact fit, otherwise the node shrunk to `num_units` followed by a new free node
holding the remainder. -/
def assignBlock (current : MemoryBlock) (process_id num_units : Int) : List MemoryBlock :=
  if current.size = num_units then
    [{ current with process_id := process_id }]
  else
    [{ current with size := num_units, process_id := process_id },
     { start_address := current.start_address + num_units,
       size := current.size - num_units,
       process_id := -1 }]

/-- Search loop of `FirstFitMemory::allocate_mem` from `current` with the running counter
`nodes_traversed`: on the first free node that is large enough it returns the counter and
the rewritten chain; `none` when the chain ends without a match. -/
def FirstFitMemory.search (process_id num_units : Int) :
    List MemoryBlock → Nat → Option (Nat × List MemoryBlock)
  | [], _ => none
  | current :: rest, nodes_traversed =>
    if current.process_id = -1 ∧ current.size ≥ num_units then
      some (nodes_traversed + 1, assignBlock current process_id num_units ++ rest)
    else
      match FirstFitMemory.search process_id num_units rest (nodes_traversed + 1) with
      | some (k, rest') => some (k, current :: rest')
      | none => none

/-- Model of `FirstFitMemory::allocate_mem`. -/
def FirstFitMemory.allocate_mem (m : MemoryComponent) (process_id num_units : Int) :
    Int × MemoryComponent :=
  if num_units < 3 ∨ num_units > 10 then
    (-1, m)
  else
    match FirstFitMemory.search process_id num_units m.blocks 0 with
    | some (nodes_traversed, blocks') =>
      ((nodes_traversed : Int),
        { blocks := blocks'
          process_map := fun q =>
            if q = process_id then (nodes_traversed : Int) - 1 else m.process_map q
          process_count := m.process_count + 1 })
    | none => (-1, m)

/-- Scan loop of `BestFitMemory::allocate_mem` from `current`.  `nodes_traversed` counts the
nodes visited before `current`, so it is also the place of `current` in the list;
`best_fit` is the place of the best node so far (`none` for `nullptr`) and `best_fit_size`
its size.  The whole chain is always walked; the result is the final value of `best_fit`,
`best_fit_size` and `nodes_traversed`. -/
def BestFitMemory.scan (num_units : Int) :
    List MemoryBlock → Nat → Option Nat → Int → Option Nat × Int × Nat
  | [], nodes_traversed, best_fit, best_fit_size => (best_fit, best_fit_size, nodes_traversed)
  | current :: rest, nodes_traversed, best_fit, best_fit_size =>
    if current.process_id = -1 ∧ current.size ≥ num_units then
      if current.size < best_fit_size then
        BestFitMemory.scan num_units rest (nodes_traversed + 1) (some nodes_traversed)
          current.size
      else
        BestFitMemory.scan num_units rest (nodes_traversed + 1) best_fit best_fit_size
    else
      BestFitMemory.scan num_units rest (nodes_traversed + 1) best_fit best_fit_size

/-- Rewrites the node at place `best_fit` with `assignBlock`, leaving the others alone. -/
def assignAt (process_id num_units : Int) : List MemoryBlock → Nat → List MemoryBlock
  | [], _ => []
  | current :: rest, 0 => assignBlock current process_id num_units ++ rest
  | current :: rest, k + 1 => current :: assignAt process_id num_units rest k

/-- Model of `BestFitMemory::allocate_mem`.  The value stored in `process_map` is
`nodes_traversed - 1` with the counter as it stands after the scan. -/
def BestFitMemory.allocate_mem (m : MemoryComponent) (process_id num_units : Int) :
    Int × MemoryComponent :=
  if num_units < 3 ∨ num_units > 10 then
    (-1, m)
  else
    match BestFitMemory.scan num_units m.blocks 0 none (TOTAL_MEMORY_UNITS + 1) with
    | (none, _, _) => (-1, m)
    | (some best_fit, _, nodes_traversed) =>
      ((nodes_traversed : Int),
        { blocks := assignAt process_id num_units m.blocks best_fit
          process_map := fun q =>
            if q = process_id then (nodes_traversed : Int) - 1 else m.process_map q
          process_count := m.process_count + 1 })

/-! ## Deallocation -/

/-- Sets `process_id = -1` on the node at place `k` (no change when the list is shorter). -/
def markFreeAt : List MemoryBlock → Nat → List MemoryBlock
  | [], _ => []
  | current :: rest, 0 => { current with process_id := -1 } :: rest
  | current :: rest, k + 1 => current :: markFreeAt rest k

/-- Body shared verbatim by `FirstFitMemory::deallocate_mem` and
`BestFitMemory::deallocate_mem`.  The `for` loop follows `block_index` links from `head`
(none when `block_index ≤ 0`) and stops early on `nullptr`. -/
def MemoryComponent.deallocate_mem (m : MemoryComponent) (process_id : Int) :
    Int × MemoryComponent :=
  if m.process_map process_id = -1 then
    (-1, m)
  else
    let block_index := m.process_map process_id
    match m.blocks.drop block_index.toNat with
    | [] => (-1, m)
    | _ :: _ =>
      (1,
        { blocks := merge_adjacent_free_blocks (markFreeAt m.blocks block_index.toNat)
          process_map := fun q => if q = process_id then -1 else m.process_map q
          process_count := m.process_count - 1 })

/-- Model of `FirstFitMemory::deallocate_mem`. -/
def FirstFitMemory.deallocate_mem (m : MemoryComponent) (process_id : Int) :
    Int × MemoryComponent :=
  m.deallocate_mem process_id

/-- Model of `BestFitMemory::deallocate_mem`. -/
def BestFitMemory.deallocate_mem (m : MemoryComponent) (process_id : Int) :
    Int × MemoryComponent :=
  m.deallocate_mem process_id

/-! ## Fragment count -/

/-- Body shared by `FirstFitMemory::fragment_count` and `BestFitMemory::fragment_count`. -/
def MemoryComponent.fragment_count (m : MemoryComponent) : Int :=
  m.blocks.foldl
    (fun fragments current =>
      if current.process_id = -1 ∧ (current.size = 1 ∨ current.size = 2) then fragments + 1
      else fragments)
    0

/-! ## The two concrete classes behind the `MemoryComponent` interface -/

/-- The two subclasses of `MemoryComponent`. -/
inductive Technique where
  | firstFit
  | bestFit
deriving DecidableEq, Repr

/-- Virtual call `allocate_mem`. -/
def allocate_mem : Technique → MemoryComponent → Int → Int → Int × MemoryComponent
  | .firstFit => FirstFitMemory.allocate_mem
  | .bestFit => BestFitMemory.allocate_mem

/-- Virtual call `deallocate_mem`. -/
def deallocate_mem : Technique → MemoryComponent → Int → Int × MemoryComponent
  | .firstFit => FirstFitMemory.deallocate_mem
  | .bestFit => BestFitMemory.deallocate_mem

/-- States reachable from a freshly constructed allocator by `allocate_mem` and
`deallocate_mem` calls whose process id lies in `0..999`; sizes are arbitrary. -/
inductive Reachable (t : Technique) : MemoryComponent → Prop
  | fresh : Reachable t MemoryComponent.fresh
  | allocate (m : MemoryComponent) (process_id num_units : Int) :
      Reachable t m → 0 ≤ process_id → process_id < 1000 →
      Reachable t (allocate_mem t m process_id num_units).2
  | deallocate (m : MemoryComponent) (process_id : Int) :
      Reachable t m → 0 ≤ process_id → process_id < 1000 →
      Reachable t (deallocate_mem t m process_id).2

/-- A block is free when its `process_id` is `-1`. -/
def MemoryBlock.isFree (b : MemoryBlock) : Prop := b.process_id = -1

instance (b : MemoryBlock) : Decidable b.isFree := by
  unfold MemoryBlock.isFree; infer_instance

/-- The blocks of the list tile `[a, e)` in order, each with a positive size. -/
def Tiles : Int → List MemoryBlock → Int → Prop
  | a, [], e => a = e
  | a, b :: rest, e => b.start_address = a ∧ 0 < b.size ∧ Tiles (a + b.size) rest e

/-- No two neighbouring blocks of the list are both free. -/
def NoAdjacentFree : List MemoryBlock → Prop
  | [] => True
  | [_] => True
  | a :: b :: rest => ¬ (a.isFree ∧ b.isFree) ∧ NoAdjacentFree (b :: rest)

/-- Partition invariant of a block list: it is non-empty, starts at 0, every block has a
positive size, each block ends where the next one starts, the last block ends at 128, and
the sizes add up to 128. -/
def PartitionInvariant (bs : List MemoryBlock) : Prop :=
  bs ≠ [] ∧
  (∀ b, bs.head? = some b → b.start_address = 0) ∧
  (∀ b ∈ bs, 0 < b.size) ∧
  (∀ (i : Nat) (x y : MemoryBlock), bs[i]? = some x → bs[i + 1]? = some y →
    x.start_address + x.size = y.start_address) ∧
  (∀ b, bs.getLast? = some b → b.start_address + b.size = 128) ∧
  (bs.map MemoryBlock.size).sum = 128

/-- Coalescing invariant of a block list: no block and its successor both have
`process_id == -1`. -/
def CoalescingInvariant (bs : List MemoryBlock) : Prop :=
  ∀ (i : Nat) (x y : MemoryBlock), bs[i]? = some x → bs[i + 1]? = some y →
    ¬ (x.process_id = -1 ∧ y.process_id = -1)

/-- First-Fit allocator after `allocate_mem(1, 5)`, `allocate_mem(2, 8)`,
`deallocate_mem(1)` on a fresh instance (tests 1, 2 and 4 of `main.cpp`). -/
def firstFitAfterTests : MemoryComponent :=
  (deallocate_mem .firstFit
    (allocate_mem .firstFit (allocate_mem .firstFit MemoryComponent.fresh 1 5).2 2 8).2 1).2

/-- Best-Fit allocator after the same three calls. -/
def bestFitAfterTests : MemoryComponent :=
  (deallocate_mem .bestFit
    (allocate_mem .bestFit (allocate_mem .bestFit MemoryComponent.fresh 1 5).2 2 8).2 1).2

/-- One call of the public interface. -/
inductive Call where
  | allocate (process_id num_units : Int)
  | deallocate (process_id : Int)

/-- Issues the calls in order, starting from `m`: the return values in call order, and the
final state. -/
def runCalls (t : Technique) : MemoryComponent → List Call → List Int × MemoryComponent
  | m, [] => ([], m)
  | m, .allocate process_id num_units :: calls =>
    let r := allocate_mem t m process_id num_units
    let q := runCalls t r.2 calls
    (r.1 :: q.1, q.2)
  | m, .deallocate process_id :: calls =>
    let r := deallocate_mem t m process_id
    let q := runCalls t r.2 calls
    (r.1 :: q.1, q.2)

/-- Process id passed by a call. -/
def Call.process_id : Call → Int
  | .allocate process_id _ => process_id
  | .deallocate process_id => process_id

/-- Model of `FirstFitMemory::fragment_count`: the count, and the state after the call.  The
body only reads the nodes, so the state is the one it was called on. -/
def FirstFitMemory.fragment_count (m : MemoryComponent) : Int × MemoryComponent :=
  (m.fragment_count, m)

/-- Model of `BestFitMemory::fragment_count`, whose body is the same. -/
def BestFitMemory.fragment_count (m : MemoryComponent) : Int × MemoryComponent :=
  (m.fragment_count, m)

/-- Virtual call `fragment_count`. -/
def fragment_count : Technique → MemoryComponent → Int × MemoryComponent
  | .firstFit => FirstFitMemory.fragment_count
  | .bestFit => BestFitMemory.fragment_count

/-- A fragment: a free block of size 1 or 2. -/
def MemoryBlock.isFragment (b : MemoryBlock) : Prop :=
  b.process_id = -1 ∧ (b.size = 1 ∨ b.size = 2)

instance (b : MemoryBlock) : Decidable b.isFragment := by
  unfold MemoryBlock.isFragment; infer_instance

/-- Owner uniqueness of a block list: two blocks with the same owner (not `-1`) are the
same block of the list. -/
def OwnerUnique (bs : List MemoryBlock) : Prop :=
  ∀ (i j : Nat) (x y : MemoryBlock), bs[i]? = some x → bs[j]? = some y →
    x.process_id ≠ -1 → x.process_id = y.process_id → i = j

/-- States reachable from a freshly constructed allocator when `allocate_mem` is only
called with a process id (in `0..999`) that owns no block of the current list;
`deallocate_mem` calls are not restricted. -/
inductive ReachableDistinct (t : Technique) : MemoryComponent → Prop
  | fresh : ReachableDistinct t MemoryComponent.fresh
  | allocate (m : MemoryComponent) (process_id num_units : Int) :
      ReachableDistinct t m → 0 ≤ process_id → process_id < 1000 →
      (∀ b ∈ m.blocks, b.process_id ≠ process_id) →
      ReachableDistinct t (allocate_mem t m process_id num_units).2
  | deallocate (m : MemoryComponent) (process_id : Int) :
      ReachableDistinct t m → 0 ≤ process_id → process_id < 1000 →
      ReachableDistinct t (deallocate_mem t m process_id).2

/-- A block that has an owner does not share it with any later block of the list. -/
def DistinctOwners (bs : List MemoryBlock) : Prop :=
  bs.Pairwise (fun x y => x.process_id ≠ -1 → x.process_id ≠ y.process_id)

/-- Reference partition for the merge pass, written from the statement "every maximal run
of consecutive free blocks becomes one free block" and not from the loop: a free block
takes in the sizes of the free blocks that follow it directly and keeps its start, the walk
resumes behind that run, and a block with an owner is kept as it is. -/
def maximalFreeRuns : List MemoryBlock → List MemoryBlock
  | [] => []
  | b :: rest =>
    if b.process_id = -1 then
      { start_address := b.start_address
        size := b.size +
          ((rest.takeWhile (fun x => decide (x.process_id = -1))).map MemoryBlock.size).sum
        process_id := -1 }
        :: maximalFreeRuns (rest.dropWhile (fun x => decide (x.process_id = -1)))
    else
      b :: maximalFreeRuns rest
termination_by bs => bs.length
decreasing_by
  · simp only [List.length_cons]
    exact Nat.lt_succ_of_le (List.dropWhile_sublist _).length_le
  · simp only [List.length_cons]
    exact Nat.lt_succ_self _

/-- Calls that fill the memory exactly (processes 1..12 with 10 units each, process 13 with
the last 8 units) and then release processes 1 and 2. -/
def fillThenFreeTwo : List Call :=
  [.allocate 1 10, .allocate 2 10, .allocate 3 10, .allocate 4 10, .allocate 5 10,
   .allocate 6 10, .allocate 7 10, .allocate 8 10, .allocate 9 10, .allocate 10 10,
   .allocate 11 10, .allocate 12 10, .allocate 13 8, .deallocate 1, .deallocate 2]

/-! ## Lemmas on the block list -/

theorem noAdjacentFree_cons (a : MemoryBlock) (l : List MemoryBlock) :
    NoAdjacentFree (a :: l) ↔
      (∀ b, l.head? = some b → ¬ (a.isFree ∧ b.isFree)) ∧ NoAdjacentFree l := by
  cases l with
  | nil => simp [NoAdjacentFree]
  | cons b rest => simp [NoAdjacentFree]

theorem tiles_append (xs ys : List MemoryBlock) (a e : Int) :
    Tiles a (xs ++ ys) e ↔ ∃ mid, Tiles a xs mid ∧ Tiles mid ys e := by
  induction xs generalizing a with
  | nil => simp [Tiles]
  | cons b rest ih =>
    show Tiles a (b :: (rest ++ ys)) e ↔ _
    simp only [Tiles, ih]
    constructor
    · rintro ⟨h1, h2, mid, h3, h4⟩
      exact ⟨mid, ⟨h1, h2, h3⟩, h4⟩
    · rintro ⟨mid, ⟨h1, h2, h3⟩, h4⟩
      exact ⟨h1, h2, mid, h3, h4⟩

theorem tiles_assignBlock (current : MemoryBlock) (process_id num_units a : Int)
    (hs : current.start_address = a) (hn : 0 < num_units) (hle : num_units ≤ current.size) :
    Tiles a (assignBlock current process_id num_units) (a + current.size) := by
  unfold assignBlock
  split
  · next h => simp [Tiles, hs, h, hn]
  · next h =>
    have hne : num_units ≠ current.size := fun h' => h h'.symm
    refine ⟨hs, hn, ?_, ?_, ?_⟩
    · show current.start_address + num_units = a + num_units
      rw [hs]
    · show 0 < current.size - num_units
      omega
    · show a + num_units + (current.size - num_units) = a + current.size
      omega

theorem tiles_assignAt (process_id num_units : Int) (hn : 0 < num_units)
    (bs : List MemoryBlock) (i : Nat) (a e : Int) (ht : Tiles a bs e)
    (hfit : ∀ b, bs[i]? = some b → num_units ≤ b.size) :
    Tiles a (assignAt process_id num_units bs i) e := by
  induction bs generalizing i a with
  | nil => simpa [assignAt] using ht
  | cons b rest ih =>
    obtain ⟨h1, h2, h3⟩ := ht
    cases i with
    | zero =>
      simp only [assignAt]
      rw [tiles_append]
      exact ⟨a + b.size, tiles_assignBlock b process_id num_units a h1 hn (hfit b (by simp)), h3⟩
    | succ k =>
      simp only [assignAt, Tiles]
      exact ⟨h1, h2, ih k _ h3 (fun c hc => hfit c (by simpa using hc))⟩

theorem tiles_markFreeAt (bs : List MemoryBlock) (k : Nat) (a e : Int) (ht : Tiles a bs e) :
    Tiles a (markFreeAt bs k) e := by
  induction bs generalizing k a with
  | nil => simpa [markFreeAt] using ht
  | cons b rest ih =>
    obtain ⟨h1, h2, h3⟩ := ht
    cases k with
    | zero => exact ⟨h1, h2, h3⟩
    | succ k => exact ⟨h1, h2, ih k _ h3⟩

theorem tiles_mergeLoop (rest : List MemoryBlock) (current : MemoryBlock) (a e : Int)
    (ht : Tiles a (current :: rest) e) : Tiles a (mergeLoop current rest) e := by
  induction rest generalizing current a with
  | nil => simpa [mergeLoop] using ht
  | cons next rest ih =>
    obtain ⟨h1, h2, h3, h4, h5⟩ := ht
    unfold mergeLoop
    split
    · apply ih
      refine ⟨h1, ?_, ?_⟩
      · show 0 < current.size + next.size
        omega
      · show Tiles (a + (current.size + next.size)) rest e
        rw [← add_assoc]; exact h5
    · exact ⟨h1, h2, ih next _ ⟨h3, h4, h5⟩⟩

theorem tiles_merge (bs : List MemoryBlock) (a e : Int) (ht : Tiles a bs e) :
    Tiles a (merge_adjacent_free_blocks bs) e := by
  cases bs with
  | nil => simpa [merge_adjacent_free_blocks] using ht
  | cons b rest => exact tiles_mergeLoop rest b a e ht

theorem mergeLoop_head (rest : List MemoryBlock) (current : MemoryBlock) :
    ∃ b l, mergeLoop current rest = b :: l ∧ b.process_id = current.process_id ∧
      b.start_address = current.start_address := by
  induction rest generalizing current with
  | nil => exact ⟨current, [], rfl, rfl, rfl⟩
  | cons next rest ih =>
    unfold mergeLoop
    split
    · obtain ⟨b, l, h1, h2, h3⟩ := ih { current with size := current.size + next.size }
      exact ⟨b, l, h1, h2, h3⟩
    · exact ⟨current, _, rfl, rfl, rfl⟩

theorem noAdjacentFree_mergeLoop (rest : List MemoryBlock) (current : MemoryBlock) :
    NoAdjacentFree (mergeLoop current rest) := by
  induction rest generalizing current with
  | nil => simp [mergeLoop, NoAdjacentFree]
  | cons next rest ih =>
    unfold mergeLoop
    split
    · exact ih _
    · next hne =>
      rw [noAdjacentFree_cons]
      refine ⟨?_, ih next⟩
      intro b hb
      obtain ⟨c, l, h1, h2, _⟩ := mergeLoop_head rest next
      rw [h1] at hb
      simp only [List.head?_cons, Option.some.injEq] at hb
      subst hb
      simp only [MemoryBlock.isFree, h2]
      exact hne

theorem noAdjacentFree_merge (bs : List MemoryBlock) :
    NoAdjacentFree (merge_adjacent_free_blocks bs) := by
  cases bs with
  | nil => simp [merge_adjacent_free_blocks, NoAdjacentFree]
  | cons b rest => exact noAdjacentFree_mergeLoop rest b

theorem assignBlock_cases (current : MemoryBlock) (process_id num_units : Int) :
    (current.size = num_units ∧
      assignBlock current process_id num_units = [{ current with process_id := process_id }]) ∨
    (current.size ≠ num_units ∧
      assignBlock current process_id num_units =
        [{ current with size := num_units, process_id := process_id },
         { start_address := current.start_address + num_units,
           size := current.size - num_units, process_id := -1 }]) := by
  unfold assignBlock
  by_cases h : current.size = num_units
  · left; simp [h]
  · right; simp [h]

theorem assignAt_head (process_id num_units : Int) (hp : process_id ≠ -1)
    (bs : List MemoryBlock) (i : Nat) (b : MemoryBlock)
    (hb : (assignAt process_id num_units bs i).head? = some b) (hfree : b.isFree) :
    ∃ c, bs.head? = some c ∧ c.isFree := by
  cases bs with
  | nil => simp [assignAt] at hb
  | cons c rest =>
    cases i with
    | zero =>
      exfalso
      simp only [assignAt] at hb
      rcases assignBlock_cases c process_id num_units with ⟨_, h⟩ | ⟨_, h⟩ <;>
        rw [h] at hb <;>
        simp only [List.cons_append, List.head?_cons, Option.some.injEq] at hb <;>
        subst hb <;> exact hp hfree
    | succ k =>
      simp only [assignAt, List.head?_cons, Option.some.injEq] at hb
      subst hb
      exact ⟨c, rfl, hfree⟩

theorem noAdjacentFree_assignAt (process_id num_units : Int) (hp : process_id ≠ -1)
    (bs : List MemoryBlock) (i : Nat) (h : NoAdjacentFree bs)
    (hfree : ∀ b, bs[i]? = some b → b.isFree) :
    NoAdjacentFree (assignAt process_id num_units bs i) := by
  induction bs generalizing i with
  | nil => simp [assignAt, NoAdjacentFree]
  | cons c rest ih =>
    rw [noAdjacentFree_cons] at h
    obtain ⟨h1, h2⟩ := h
    cases i with
    | zero =>
      have hc : c.isFree := hfree c (by simp)
      simp only [assignAt]
      rcases assignBlock_cases c process_id num_units with ⟨_, e⟩ | ⟨_, e⟩ <;> rw [e]
      · show NoAdjacentFree (_ :: rest)
        rw [noAdjacentFree_cons]
        exact ⟨fun b _ hb => hp hb.1, h2⟩
      · show NoAdjacentFree (_ :: _ :: rest)
        rw [noAdjacentFree_cons, noAdjacentFree_cons]
        refine ⟨fun b _ hb => hp hb.1, ?_, h2⟩
        intro b hb hbb
        exact h1 b hb ⟨hc, hbb.2⟩
    | succ k =>
      simp only [assignAt]
      rw [noAdjacentFree_cons]
      refine ⟨?_, ih k h2 (fun b hb => hfree b (by simpa using hb))⟩
      intro b hb hbb
      obtain ⟨d, hd, hdf⟩ := assignAt_head process_id num_units hp rest k b hb hbb.2
      exact h1 d hd ⟨hbb.1, hdf⟩

theorem search_some (process_id num_units : Int) (bs : List MemoryBlock) (k r : Nat)
    (bs' : List MemoryBlock)
    (h : FirstFitMemory.search process_id num_units bs k = some (r, bs')) :
    ∃ i b, r = k + i + 1 ∧ bs' = assignAt process_id num_units bs i ∧ bs[i]? = some b ∧
      b.isFree ∧ num_units ≤ b.size ∧
      ∀ j c, j < i → bs[j]? = some c → ¬ (c.isFree ∧ num_units ≤ c.size) := by
  induction bs generalizing k r bs' with
  | nil => simp [FirstFitMemory.search] at h
  | cons c rest ih =>
    unfold FirstFitMemory.search at h
    split at h
    · next hc =>
      simp only [Option.some.injEq, Prod.mk.injEq] at h
      refine ⟨0, c, by omega, h.2.symm, by simp, hc.1, hc.2, ?_⟩
      intro j _ hj
      omega
    · next hc =>
      split at h
      · next r' rest' heq =>
        simp only [Option.some.injEq, Prod.mk.injEq] at h
        obtain ⟨i, b, h1, h2, h3, h4, h5, h6⟩ := ih (k + 1) r' rest' heq
        refine ⟨i + 1, b, by omega, ?_, by simpa using h3, h4, h5, ?_⟩
        · rw [← h.2, h2]; rfl
        · intro j d hj hd
          cases j with
          | zero =>
            simp only [List.getElem?_cons_zero, Option.some.injEq] at hd
            subst hd
            exact hc
          | succ j =>
            exact h6 j d (by omega) (by simpa using hd)
      · simp at h

theorem search_none (process_id num_units : Int) (bs : List MemoryBlock) (k : Nat) :
    FirstFitMemory.search process_id num_units bs k = none ↔
      ∀ b ∈ bs, ¬ (b.isFree ∧ num_units ≤ b.size) := by
  induction bs generalizing k with
  | nil => simp [FirstFitMemory.search]
  | cons c rest ih =>
    unfold FirstFitMemory.search
    split
    · next hc =>
      constructor
      · intro h; simp at h
      · intro h
        exact absurd ⟨hc.1, hc.2⟩ (h c (List.mem_cons_self _ _))
    · next hc =>
      have key := ih (k + 1)
      cases hs : FirstFitMemory.search process_id num_units rest (k + 1) with
      | none =>
        constructor
        · intro _ b hb
          rcases List.mem_cons.mp hb with rfl | hb
          · exact hc
          · exact key.mp hs b hb
        · intro _; rfl
      | some v =>
        constructor
        · intro h; simp at h
        · intro h
          rw [hs] at key
          have := key.mpr (fun b hb => h b (List.mem_cons_of_mem _ hb))
          simp at this

theorem scan_spec (num_units : Int) (bs : List MemoryBlock) (position : Nat)
    (best_fit : Option Nat) (best_fit_size : Int) :
    (BestFitMemory.scan num_units bs position best_fit best_fit_size
        = (best_fit, best_fit_size, position + bs.length) ∧
      ∀ b ∈ bs, ¬ (b.isFree ∧ num_units ≤ b.size ∧ b.size < best_fit_size)) ∨
    (∃ i b, BestFitMemory.scan num_units bs position best_fit best_fit_size
        = (some (position + i), b.size, position + bs.length) ∧
      bs[i]? = some b ∧ b.isFree ∧ num_units ≤ b.size ∧ b.size < best_fit_size ∧
      (∀ (j : Nat) (c : MemoryBlock),
        bs[j]? = some c → c.isFree → num_units ≤ c.size → b.size ≤ c.size) ∧
      (∀ (j : Nat) (c : MemoryBlock),
        j < i → bs[j]? = some c → c.isFree → num_units ≤ c.size → b.size < c.size)) := by
  induction bs generalizing position best_fit best_fit_size with
  | nil => left; simp [BestFitMemory.scan]
  | cons c rest ih =>
    by_cases hc : c.process_id = -1 ∧ c.size ≥ num_units ∧ c.size < best_fit_size
    · have hstep : BestFitMemory.scan num_units (c :: rest) position best_fit best_fit_size =
          BestFitMemory.scan num_units rest (position + 1) (some position) c.size := by
        simp [BestFitMemory.scan, hc.1, hc.2.1, hc.2.2]
      rw [hstep]
      right
      rcases ih (position + 1) (some position) c.size with ⟨h1, h2⟩ | ⟨i, b, h1, h2, h3, h4, h5, h6, h7⟩
      · refine ⟨0, c, ?_, by simp, hc.1, hc.2.1, hc.2.2, ?_, ?_⟩
        · rw [h1]
          simp only [List.length_cons, Prod.mk.injEq, Option.some.injEq, true_and]
          omega
        · intro j d hd hdf hdn
          cases j with
          | zero =>
            simp only [List.getElem?_cons_zero, Option.some.injEq] at hd
            subst hd; exact le_refl _
          | succ j =>
            simp only [List.getElem?_cons_succ] at hd
            have := h2 d (List.getElem?_mem hd)
            simp only [not_and, not_lt] at this
            exact this hdf hdn
        · intro j d hj
          omega
      · refine ⟨i + 1, b, ?_, by simpa using h2, h3, h4, by omega, ?_, ?_⟩
        · rw [h1]
          simp only [List.length_cons, Prod.mk.injEq, Option.some.injEq, true_and]
          omega
        · intro j d hd hdf hdn
          cases j with
          | zero =>
            simp only [List.getElem?_cons_zero, Option.some.injEq] at hd
            subst hd; omega
          | succ j => exact h6 j d (by simpa using hd) hdf hdn
        · intro j d hj hd hdf hdn
          cases j with
          | zero =>
            simp only [List.getElem?_cons_zero, Option.some.injEq] at hd
            subst hd; exact h5
          | succ j => exact h7 j d (by omega) (by simpa using hd) hdf hdn
    · have hstep : BestFitMemory.scan num_units (c :: rest) position best_fit best_fit_size =
          BestFitMemory.scan num_units rest (position + 1) best_fit best_fit_size := by
        rw [BestFitMemory.scan]
        split
        · next h =>
          split
          · next h' => exact absurd ⟨h.1, h.2, h'⟩ hc
          · rfl
        · rfl
      rw [hstep]
      rcases ih (position + 1) best_fit best_fit_size with ⟨h1, h2⟩ | ⟨i, b, h1, h2, h3, h4, h5, h6, h7⟩
      · left
        refine ⟨?_, ?_⟩
        · rw [h1]
          simp only [List.length_cons, Prod.mk.injEq, true_and]
          omega
        intro d hd
        rcases List.mem_cons.mp hd with rfl | hd
        · exact hc
        · exact h2 d hd
      · right
        have hcur : c.isFree → num_units ≤ c.size → best_fit_size ≤ c.size := by
          intro hf hn
          by_contra hlt
          exact hc ⟨hf, hn, by omega⟩
        refine ⟨i + 1, b, ?_, by simpa using h2, h3, h4, h5, ?_, ?_⟩
        · rw [h1]
          simp only [List.length_cons, Prod.mk.injEq, Option.some.injEq, true_and]
          omega
        · intro j d hd hdf hdn
          cases j with
          | zero =>
            simp only [List.getElem?_cons_zero, Option.some.injEq] at hd
            subst hd
            have := hcur hdf hdn
            omega
          | succ j => exact h6 j d (by simpa using hd) hdf hdn
        · intro j d hj hd hdf hdn
          cases j with
          | zero =>
            simp only [List.getElem?_cons_zero, Option.some.injEq] at hd
            subst hd
            have := hcur hdf hdn
            omega
          | succ j => exact h7 j d (by omega) (by simpa using hd) hdf hdn

/-! ## Shape of the two operations -/

theorem firstFit_allocate_mem_cases (m : MemoryComponent) (process_id num_units : Int) :
    (FirstFitMemory.allocate_mem m process_id num_units = (-1, m) ∧
      (num_units < 3 ∨ num_units > 10 ∨
        ∀ b ∈ m.blocks, ¬ (b.isFree ∧ num_units ≤ b.size))) ∨
    (3 ≤ num_units ∧ num_units ≤ 10 ∧ ∃ i b, m.blocks[i]? = some b ∧ b.isFree ∧
      num_units ≤ b.size ∧
      (∀ (j : Nat) (c : MemoryBlock), j < i → m.blocks[j]? = some c →
        ¬ (c.isFree ∧ num_units ≤ c.size)) ∧
      FirstFitMemory.allocate_mem m process_id num_units =
        (((i + 1 : Nat) : Int),
          { blocks := assignAt process_id num_units m.blocks i
            process_map := fun q => if q = process_id then (i : Int) else m.process_map q
            process_count := m.process_count + 1 })) := by
  unfold FirstFitMemory.allocate_mem
  split
  · next hn =>
    left
    refine ⟨rfl, ?_⟩
    rcases hn with hn | hn
    · exact Or.inl hn
    · exact Or.inr (Or.inl hn)
  · next hn =>
    split
    · next r bs' heq =>
      right
      obtain ⟨i, b, h1, h2, h3, h4, h5, h6⟩ := search_some process_id num_units m.blocks 0 r bs' heq
      refine ⟨by omega, by omega, i, b, h3, h4, h5, h6, ?_⟩
      have hr : r = i + 1 := by omega
      subst hr
      subst h2
      simp
    · next heq =>
      left
      exact ⟨rfl, Or.inr (Or.inr ((search_none process_id num_units m.blocks 0).mp heq))⟩

theorem bestFit_allocate_mem_cases (m : MemoryComponent) (process_id num_units : Int) :
    (BestFitMemory.allocate_mem m process_id num_units = (-1, m) ∧
      (num_units < 3 ∨ num_units > 10 ∨
        ∀ b ∈ m.blocks, ¬ (b.isFree ∧ num_units ≤ b.size ∧ b.size < 129))) ∨
    (3 ≤ num_units ∧ num_units ≤ 10 ∧ ∃ i b, m.blocks[i]? = some b ∧ b.isFree ∧
      num_units ≤ b.size ∧
      (∀ (j : Nat) (c : MemoryBlock), m.blocks[j]? = some c → c.isFree →
        num_units ≤ c.size → b.size ≤ c.size) ∧
      (∀ (j : Nat) (c : MemoryBlock), j < i → m.blocks[j]? = some c → c.isFree →
        num_units ≤ c.size → b.size < c.size) ∧
      BestFitMemory.allocate_mem m process_id num_units =
        ((m.blocks.length : Int),
          { blocks := assignAt process_id num_units m.blocks i
            process_map := fun q =>
              if q = process_id then (m.blocks.length : Int) - 1 else m.process_map q
            process_count := m.process_count + 1 })) := by
  unfold BestFitMemory.allocate_mem
  split
  · next hn =>
    left
    refine ⟨rfl, ?_⟩
    rcases hn with hn | hn
    · exact Or.inl hn
    · exact Or.inr (Or.inl hn)
  · next hn =>
    rcases scan_spec num_units m.blocks 0 none (TOTAL_MEMORY_UNITS + 1) with
      ⟨h1, h2⟩ | ⟨i, b, h1, h2, h3, h4, _, h6, h7⟩
    · left
      rw [h1]
      exact ⟨rfl, Or.inr (Or.inr h2)⟩
    · right
      refine ⟨by omega, by omega, i, b, h2, h3, h4, h6, h7, ?_⟩
      rw [h1]
      simp

theorem deallocate_mem_cases (m : MemoryComponent) (process_id : Int) :
    (m.deallocate_mem process_id = (-1, m) ∧
      (m.process_map process_id = -1 ∨
        m.blocks.length ≤ (m.process_map process_id).toNat)) ∨
    (m.process_map process_id ≠ -1 ∧ (m.process_map process_id).toNat < m.blocks.length ∧
      m.deallocate_mem process_id =
        (1,
          { blocks := merge_adjacent_free_blocks
              (markFreeAt m.blocks (m.process_map process_id).toNat)
            process_map := fun q => if q = process_id then -1 else m.process_map q
            process_count := m.process_count - 1 })) := by
  unfold MemoryComponent.deallocate_mem
  split
  · next h => left; exact ⟨rfl, Or.inl h⟩
  · next h =>
    simp only
    split
    · next hd =>
      left
      refine ⟨rfl, Or.inr ?_⟩
      exact List.drop_eq_nil_iff.mp hd
    · next x xs hd =>
      right
      refine ⟨h, ?_, rfl⟩
      by_contra hlen
      have : List.drop (m.process_map process_id).toNat m.blocks = [] :=
        List.drop_eq_nil_iff.mpr (by omega)
      rw [this] at hd
      simp at hd

/-! ## Invariants of the reachable states -/

theorem tiles_fresh : Tiles 0 MemoryComponent.fresh.blocks 128 := by
  simp [Tiles, MemoryComponent.fresh, TOTAL_MEMORY_UNITS]

theorem allocate_mem_blocks (t : Technique) (m : MemoryComponent) (process_id num_units : Int) :
    (allocate_mem t m process_id num_units).2.blocks = m.blocks ∨
    (3 ≤ num_units ∧ ∃ i b, m.blocks[i]? = some b ∧ b.isFree ∧ num_units ≤ b.size ∧
      (allocate_mem t m process_id num_units).2.blocks = assignAt process_id num_units m.blocks i) := by
  cases t with
  | firstFit =>
    rcases firstFit_allocate_mem_cases m process_id num_units with
      ⟨h, _⟩ | ⟨h1, _, i, b, h3, h4, h5, _, h7⟩
    · left; show (FirstFitMemory.allocate_mem m process_id num_units).2.blocks = _; rw [h]
    · right
      refine ⟨h1, i, b, h3, h4, h5, ?_⟩
      show (FirstFitMemory.allocate_mem m process_id num_units).2.blocks = _
      rw [h7]
  | bestFit =>
    rcases bestFit_allocate_mem_cases m process_id num_units with
      ⟨h, _⟩ | ⟨h1, _, i, b, h3, h4, h5, _, _, h7⟩
    · left; show (BestFitMemory.allocate_mem m process_id num_units).2.blocks = _; rw [h]
    · right
      refine ⟨h1, i, b, h3, h4, h5, ?_⟩
      show (BestFitMemory.allocate_mem m process_id num_units).2.blocks = _
      rw [h7]

theorem deallocate_mem_blocks (t : Technique) (m : MemoryComponent) (process_id : Int) :
    (deallocate_mem t m process_id).2.blocks = m.blocks ∨
    ∃ k, (deallocate_mem t m process_id).2.blocks =
      merge_adjacent_free_blocks (markFreeAt m.blocks k) := by
  have key : (m.deallocate_mem process_id).2.blocks = m.blocks ∨
      ∃ k, (m.deallocate_mem process_id).2.blocks =
        merge_adjacent_free_blocks (markFreeAt m.blocks k) := by
    rcases deallocate_mem_cases m process_id with ⟨h, _⟩ | ⟨_, _, h⟩
    · left; rw [h]
    · right; exact ⟨_, by rw [h]⟩
  cases t <;> exact key

theorem reachable_tiles (t : Technique) (m : MemoryComponent) (h : Reachable t m) :
    Tiles 0 m.blocks 128 := by
  induction h with
  | fresh => exact tiles_fresh
  | allocate m process_id num_units _ _ _ ih =>
    rcases allocate_mem_blocks t m process_id num_units with h | ⟨h1, i, b, h2, _, h4, h5⟩
    · rw [h]; exact ih
    · rw [h5]
      refine tiles_assignAt process_id num_units (by omega) m.blocks i 0 128 ih ?_
      intro c hc
      rw [h2] at hc
      simp only [Option.some.injEq] at hc
      subst hc
      exact h4
  | deallocate m process_id _ _ _ ih =>
    rcases deallocate_mem_blocks t m process_id with h | ⟨k, h⟩
    · rw [h]; exact ih
    · rw [h]
      exact tiles_merge _ 0 128 (tiles_markFreeAt m.blocks k 0 128 ih)

theorem reachable_noAdjacentFree (t : Technique) (m : MemoryComponent) (h : Reachable t m) :
    NoAdjacentFree m.blocks := by
  induction h with
  | fresh => simp [MemoryComponent.fresh, NoAdjacentFree]
  | allocate m process_id num_units _ hp _ ih =>
    rcases allocate_mem_blocks t m process_id num_units with h | ⟨_, i, b, h2, h3, _, h5⟩
    · rw [h]; exact ih
    · rw [h5]
      refine noAdjacentFree_assignAt process_id num_units (by omega) m.blocks i ih ?_
      intro c hc
      rw [h2] at hc
      simp only [Option.some.injEq] at hc
      subst hc
      exact h3
  | deallocate m process_id _ _ _ ih =>
    rcases deallocate_mem_blocks t m process_id with h | ⟨k, h⟩
    · rw [h]; exact ih
    · rw [h]
      exact noAdjacentFree_merge _

theorem firstFitAfterTests_reachable : Reachable .firstFit firstFitAfterTests :=
  Reachable.deallocate _ 1
    (Reachable.allocate _ 2 8
      (Reachable.allocate _ 1 5 Reachable.fresh (by decide) (by decide))
      (by decide) (by decide))
    (by decide) (by decide)

theorem bestFitAfterTests_reachable : Reachable .bestFit bestFitAfterTests :=
  Reachable.deallocate _ 1
    (Reachable.allocate _ 2 8
      (Reachable.allocate _ 1 5 Reachable.fresh (by decide) (by decide))
      (by decide) (by decide))
    (by decide) (by decide)

theorem tiles_ne_nil (bs : List MemoryBlock) (a e : Int) (h : Tiles a bs e) (hae : a ≠ e) :
    bs ≠ [] := by
  rintro rfl
  exact hae h

theorem tiles_head (bs : List MemoryBlock) (a e : Int) (h : Tiles a bs e) (b : MemoryBlock)
    (hb : bs.head? = some b) : b.start_address = a := by
  cases bs with
  | nil => simp at hb
  | cons c rest =>
    simp only [List.head?_cons, Option.some.injEq] at hb
    subst hb
    exact h.1

theorem tiles_pos (bs : List MemoryBlock) (a e : Int) (h : Tiles a bs e) :
    ∀ b ∈ bs, 0 < b.size := by
  induction bs generalizing a with
  | nil => simp
  | cons c rest ih =>
    intro b hb
    rcases List.mem_cons.mp hb with rfl | hb
    · exact h.2.1
    · exact ih _ h.2.2 b hb

theorem tiles_adjacent (bs : List MemoryBlock) (a e : Int) (h : Tiles a bs e) (i : Nat)
    (x y : MemoryBlock) (hx : bs[i]? = some x) (hy : bs[i + 1]? = some y) :
    x.start_address + x.size = y.start_address := by
  induction bs generalizing a i with
  | nil => simp at hx
  | cons c rest ih =>
    cases i with
    | zero =>
      simp only [List.getElem?_cons_zero, Option.some.injEq] at hx
      subst hx
      simp only [List.getElem?_cons_succ] at hy
      cases rest with
      | nil => simp at hy
      | cons d rest2 =>
        simp only [List.getElem?_cons_zero, Option.some.injEq] at hy
        subst hy
        rw [h.2.2.1, h.1]
    | succ k =>
      exact ih _ h.2.2 k (by simpa using hx) (by simpa using hy)

theorem tiles_getLast (bs : List MemoryBlock) (a e : Int) (h : Tiles a bs e) (b : MemoryBlock)
    (hb : bs.getLast? = some b) : b.start_address + b.size = e := by
  induction bs generalizing a with
  | nil => simp at hb
  | cons c rest ih =>
    cases rest with
    | nil =>
      simp only [List.getLast?_singleton, Option.some.injEq] at hb
      subst hb
      rw [h.1]; exact h.2.2
    | cons d rest2 =>
      rw [List.getLast?_cons_cons] at hb
      exact ih _ h.2.2 hb

theorem tiles_sum (bs : List MemoryBlock) (a e : Int) (h : Tiles a bs e) :
    (bs.map MemoryBlock.size).sum = e - a := by
  induction bs generalizing a with
  | nil =>
    have : a = e := h
    simp [this]
  | cons c rest ih =>
    simp only [List.map_cons, List.sum_cons, ih _ h.2.2]
    omega

theorem noAdjacentFree_index (bs : List MemoryBlock) (h : NoAdjacentFree bs) :
    CoalescingInvariant bs := by
  intro i x y hx hy
  induction bs generalizing i with
  | nil => simp at hx
  | cons c rest ih =>
    rw [noAdjacentFree_cons] at h
    cases i with
    | zero =>
      simp only [List.getElem?_cons_zero, Option.some.injEq] at hx
      subst hx
      simp only [List.getElem?_cons_succ] at hy
      refine h.1 y ?_
      cases rest with
      | nil => simp at hy
      | cons d rest2 => simpa using hy
    | succ k =>
      exact ih h.2 k (by simpa using hx) (by simpa using hy)

theorem tiles_le (bs : List MemoryBlock) (a e : Int) (h : Tiles a bs e) : a ≤ e := by
  induction bs generalizing a with
  | nil => exact le_of_eq h
  | cons c rest ih =>
    have := ih _ h.2.2
    have := h.2.1
    omega

theorem tiles_size_le (bs : List MemoryBlock) (a e : Int) (h : Tiles a bs e) :
    ∀ b ∈ bs, b.size ≤ e - a := by
  induction bs generalizing a with
  | nil => simp
  | cons c rest ih =>
    intro b hb
    have hpos := h.2.1
    rcases List.mem_cons.mp hb with rfl | hb
    · have := tiles_le _ _ _ h.2.2
      omega
    · have := ih _ h.2.2 b hb
      omega

theorem allocate_mem_result (t : Technique) (m : MemoryComponent)
    (process_id num_units : Int) :
    (allocate_mem t m process_id num_units = (-1, m) ∧
      (num_units < 3 ∨ num_units > 10 ∨
        ∀ b ∈ m.blocks, ¬ (b.isFree ∧ num_units ≤ b.size ∧ b.size < 129))) ∨
    (3 ≤ num_units ∧ num_units ≤ 10 ∧ 0 < (allocate_mem t m process_id num_units).1 ∧
      ∃ b ∈ m.blocks, b.isFree ∧ num_units ≤ b.size) := by
  cases t with
  | firstFit =>
    show (FirstFitMemory.allocate_mem m process_id num_units = (-1, m) ∧ _) ∨
      (_ ∧ _ ∧ 0 < (FirstFitMemory.allocate_mem m process_id num_units).1 ∧ _)
    rcases firstFit_allocate_mem_cases m process_id num_units with
      ⟨h1, h2⟩ | ⟨h1, h2, i, b, h3, h4, h5, _, h7⟩
    · left
      refine ⟨h1, ?_⟩
      rcases h2 with h2 | h2 | h2
      · exact Or.inl h2
      · exact Or.inr (Or.inl h2)
      · exact Or.inr (Or.inr (fun b hb hc => h2 b hb ⟨hc.1, hc.2.1⟩))
    · right
      refine ⟨h1, h2, ?_, b, List.getElem?_mem h3, h4, h5⟩
      rw [h7]
      show (0 : Int) < ((i + 1 : Nat) : Int)
      omega
  | bestFit =>
    show (BestFitMemory.allocate_mem m process_id num_units = (-1, m) ∧ _) ∨
      (_ ∧ _ ∧ 0 < (BestFitMemory.allocate_mem m process_id num_units).1 ∧ _)
    rcases bestFit_allocate_mem_cases m process_id num_units with
      ⟨h1, h2⟩ | ⟨h1, h2, i, b, h3, h4, h5, _, _, h7⟩
    · left; exact ⟨h1, h2⟩
    · right
      refine ⟨h1, h2, ?_, b, List.getElem?_mem h3, h4, h5⟩
      rw [h7]
      show (0 : Int) < (m.blocks.length : Int)
      have : 0 < m.blocks.length := List.length_pos.mpr (List.ne_nil_of_mem (List.getElem?_mem h3))
      omega

theorem assignAt_getElem_lt (process_id num_units : Int) (bs : List MemoryBlock) (i j : Nat)
    (h : j < i) : (assignAt process_id num_units bs i)[j]? = bs[j]? := by
  induction bs generalizing i j with
  | nil => simp [assignAt]
  | cons c rest ih =>
    cases i with
    | zero => omega
    | succ k =>
      cases j with
      | zero => simp [assignAt]
      | succ j =>
        simp only [assignAt, List.getElem?_cons_succ]
        exact ih k j (by omega)

theorem assignAt_getElem_self (process_id num_units : Int) (bs : List MemoryBlock) (i : Nat)
    (b : MemoryBlock) (hb : bs[i]? = some b) :
    (assignAt process_id num_units bs i)[i]? = some ⟨b.start_address, num_units, process_id⟩ := by
  induction bs generalizing i with
  | nil => simp at hb
  | cons c rest ih =>
    cases i with
    | zero =>
      simp only [List.getElem?_cons_zero, Option.some.injEq] at hb
      subst hb
      simp only [assignAt]
      rcases assignBlock_cases c process_id num_units with ⟨h1, h2⟩ | ⟨_, h2⟩
      · rw [h2, ← h1]; simp
      · rw [h2]; simp
    | succ k =>
      simp only [assignAt, List.getElem?_cons_succ]
      exact ih k (by simpa using hb)

theorem tiles_start_ge (bs : List MemoryBlock) (a e : Int) (h : Tiles a bs e) :
    ∀ b ∈ bs, a ≤ b.start_address := by
  induction bs generalizing a with
  | nil => simp
  | cons c rest ih =>
    intro b hb
    rcases List.mem_cons.mp hb with rfl | hb
    · exact le_of_eq h.1.symm
    · have := ih _ h.2.2 b hb
      have := h.2.1
      omega

theorem tiles_start_lt (bs : List MemoryBlock) (a e : Int) (h : Tiles a bs e) (i j : Nat)
    (x y : MemoryBlock) (hij : i < j) (hx : bs[i]? = some x) (hy : bs[j]? = some y) :
    x.start_address < y.start_address := by
  induction bs generalizing a i j with
  | nil => simp at hx
  | cons c rest ih =>
    cases j with
    | zero => omega
    | succ j =>
      simp only [List.getElem?_cons_succ] at hy
      cases i with
      | zero =>
        simp only [List.getElem?_cons_zero, Option.some.injEq] at hx
        subst hx
        have := tiles_start_ge rest _ e h.2.2 y (List.getElem?_mem hy)
        have := h.2.1
        have := h.1
        omega
      | succ i =>
        exact ih _ h.2.2 i j (by omega) (by simpa using hx) hy

theorem mergeLoop_of_noAdjacentFree (rest : List MemoryBlock) (current : MemoryBlock)
    (h : NoAdjacentFree (current :: rest)) : mergeLoop current rest = current :: rest := by
  induction rest generalizing current with
  | nil => rfl
  | cons next rest ih =>
    rw [noAdjacentFree_cons] at h
    unfold mergeLoop
    split
    · next hf => exact absurd hf (h.1 next rfl)
    · rw [ih next h.2]

theorem merge_markFreeAt_assignAt (process_id num_units : Int) (bs : List MemoryBlock)
    (i : Nat) (b : MemoryBlock) (h : NoAdjacentFree bs) (hb : bs[i]? = some b)
    (hfree : b.isFree) :
    merge_adjacent_free_blocks (markFreeAt (assignAt process_id num_units bs i) i) = bs := by
  induction bs generalizing i with
  | nil => simp at hb
  | cons c rest ih =>
    cases i with
    | zero =>
      simp only [List.getElem?_cons_zero, Option.some.injEq] at hb
      subst hb
      have hc : c.process_id = -1 := hfree
      simp only [assignAt]
      rcases assignBlock_cases c process_id num_units with ⟨_, e⟩ | ⟨_, e⟩ <;> rw [e]
      · show mergeLoop { c with process_id := -1 } rest = c :: rest
        have hcc : ({ c with process_id := -1 } : MemoryBlock) = c := by
          cases c; simp_all
        rw [hcc]
        exact mergeLoop_of_noAdjacentFree rest c h
      · show mergeLoop ⟨c.start_address, num_units, -1⟩
            (⟨c.start_address + num_units, c.size - num_units, -1⟩ :: rest) = c :: rest
        rw [mergeLoop]
        simp only [and_self, if_true]
        have hcc : (⟨c.start_address, num_units + (c.size - num_units), -1⟩ : MemoryBlock)
            = c := by
          cases c; simp_all
        rw [hcc]
        exact mergeLoop_of_noAdjacentFree rest c h
    | succ k =>
      have hb' : rest[k]? = some b := by simpa using hb
      rw [noAdjacentFree_cons] at h
      have hrec := ih k h.2 hb'
      simp only [assignAt, markFreeAt]
      cases hY : markFreeAt (assignAt process_id num_units rest k) k with
      | nil =>
        rw [hY] at hrec
        simp only [merge_adjacent_free_blocks] at hrec
        rw [← hrec] at hb'
        simp at hb'
      | cons y ys =>
        rw [hY] at hrec
        have hrec' : mergeLoop y ys = rest := hrec
        show mergeLoop c (y :: ys) = c :: rest
        rw [mergeLoop]
        split
        · next hf =>
          exfalso
          obtain ⟨d, l, h1, h2, _⟩ := mergeLoop_head ys y
          rw [hrec'] at h1
          refine h.1 d (by rw [h1]; rfl) ⟨hf.1, ?_⟩
          show d.process_id = -1
          rw [h2]; exact hf.2
        · rw [hrec']

theorem reachable_runCalls (t : Technique) (calls : List Call) (m : MemoryComponent)
    (h : Reachable t m) (hc : ∀ c ∈ calls, 0 ≤ c.process_id ∧ c.process_id < 1000) :
    Reachable t (runCalls t m calls).2 := by
  induction calls generalizing m with
  | nil => exact h
  | cons c rest ih =>
    have hc0 := hc c (List.mem_cons_self _ _)
    have hrest : ∀ c ∈ rest, 0 ≤ c.process_id ∧ c.process_id < 1000 :=
      fun d hd => hc d (List.mem_cons_of_mem _ hd)
    cases c with
    | allocate process_id num_units =>
      exact ih _ (Reachable.allocate m process_id num_units h hc0.1 hc0.2) hrest
    | deallocate process_id =>
      exact ih _ (Reachable.deallocate m process_id h hc0.1 hc0.2) hrest

theorem reachable_process_map (t : Technique) (m : MemoryComponent) (h : Reachable t m)
    (q : Int) : -1 ≤ m.process_map q := by
  induction h generalizing q with
  | fresh => simp [MemoryComponent.fresh]
  | allocate m process_id num_units _ _ _ ih =>
    cases t with
    | firstFit =>
      show -1 ≤ (FirstFitMemory.allocate_mem m process_id num_units).2.process_map q
      rcases firstFit_allocate_mem_cases m process_id num_units with
        ⟨h, _⟩ | ⟨_, _, i, b, _, _, _, _, h⟩
      · rw [h]; exact ih q
      · rw [h]
        show -1 ≤ if q = process_id then (i : Int) else m.process_map q
        split
        · omega
        · exact ih q
    | bestFit =>
      show -1 ≤ (BestFitMemory.allocate_mem m process_id num_units).2.process_map q
      rcases bestFit_allocate_mem_cases m process_id num_units with
        ⟨h, _⟩ | ⟨_, _, i, b, _, _, _, _, _, h⟩
      · rw [h]; exact ih q
      · rw [h]
        show -1 ≤ if q = process_id then (m.blocks.length : Int) - 1 else m.process_map q
        split
        · omega
        · exact ih q
  | deallocate m process_id _ _ _ ih =>
    have key : -1 ≤ (m.deallocate_mem process_id).2.process_map q := by
      rcases deallocate_mem_cases m process_id with ⟨h, _⟩ | ⟨_, _, h⟩
      · rw [h]; exact ih q
      · rw [h]
        show -1 ≤ if q = process_id then -1 else m.process_map q
        split
        · exact le_refl _
        · exact ih q
    cases t <;> exact key

theorem foldl_fragments (bs : List MemoryBlock) (acc : Int) :
    bs.foldl
      (fun fragments current =>
        if current.process_id = -1 ∧ (current.size = 1 ∨ current.size = 2) then fragments + 1
        else fragments) acc
      = acc + ((bs.filter (fun b => decide b.isFragment)).length : Int) := by
  induction bs generalizing acc with
  | nil => simp
  | cons c rest ih =>
    simp only [List.foldl_cons, ih, List.filter_cons, MemoryBlock.isFragment]
    by_cases hc : c.process_id = -1 ∧ (c.size = 1 ∨ c.size = 2)
    · simp only [hc, and_self, if_true, decide_True, List.length_cons]
      push_cast
      omega
    · simp only [hc, if_false, decide_False]
      simp

theorem fragment_count_eq (m : MemoryComponent) :
    m.fragment_count = ((m.blocks.filter (fun b => decide b.isFragment)).length : Int) := by
  unfold MemoryComponent.fragment_count
  rw [foldl_fragments]
  simp

theorem assignAt_eq_take_drop (process_id num_units : Int) (bs : List MemoryBlock) (i : Nat)
    (b : MemoryBlock) (hb : bs[i]? = some b) :
    bs = bs.take i ++ b :: bs.drop (i + 1) ∧
    assignAt process_id num_units bs i =
      bs.take i ++ assignBlock b process_id num_units ++ bs.drop (i + 1) := by
  induction bs generalizing i with
  | nil => simp at hb
  | cons c rest ih =>
    cases i with
    | zero =>
      simp only [List.getElem?_cons_zero, Option.some.injEq] at hb
      subst hb
      simp [assignAt]
    | succ k =>
      have hb' : rest[k]? = some b := by simpa using hb
      obtain ⟨h1, h2⟩ := ih k hb'
      constructor
      · simp only [List.take_succ_cons, List.drop_succ_cons, List.cons_append]
        rw [← h1]
      · simp only [assignAt, List.take_succ_cons, List.drop_succ_cons, List.cons_append]
        rw [h2]

theorem allocate_mem_success (t : Technique) (m : MemoryComponent)
    (process_id num_units : Int) (hs : 0 < (allocate_mem t m process_id num_units).1) :
    3 ≤ num_units ∧ num_units ≤ 10 ∧ ∃ (i : Nat) (b : MemoryBlock),
      m.blocks[i]? = some b ∧ b.process_id = -1 ∧ num_units ≤ b.size ∧
      (allocate_mem t m process_id num_units).2.blocks =
        assignAt process_id num_units m.blocks i := by
  have hneg : ¬ (0 : Int) < -1 := by decide
  cases t with
  | firstFit =>
    rcases firstFit_allocate_mem_cases m process_id num_units with
      ⟨h, _⟩ | ⟨h1, h2, i, b, h3, h4, h5, _, h7⟩
    · have hs' : 0 < (FirstFitMemory.allocate_mem m process_id num_units).1 := hs
      rw [h] at hs'
      exact absurd hs' hneg
    · refine ⟨h1, h2, i, b, h3, h4, h5, ?_⟩
      show (FirstFitMemory.allocate_mem m process_id num_units).2.blocks = _
      rw [h7]
  | bestFit =>
    rcases bestFit_allocate_mem_cases m process_id num_units with
      ⟨h, _⟩ | ⟨h1, h2, i, b, h3, h4, h5, _, _, h7⟩
    · have hs' : 0 < (BestFitMemory.allocate_mem m process_id num_units).1 := hs
      rw [h] at hs'
      exact absurd hs' hneg
    · refine ⟨h1, h2, i, b, h3, h4, h5, ?_⟩
      show (BestFitMemory.allocate_mem m process_id num_units).2.blocks = _
      rw [h7]

theorem size_le_sum (bs : List MemoryBlock) (hpos : ∀ b ∈ bs, 0 < b.size) :
    ∀ b ∈ bs, b.size ≤ (bs.map MemoryBlock.size).sum := by
  induction bs with
  | nil => simp
  | cons c rest ih =>
    have hrest : ∀ b ∈ rest, 0 < b.size := fun b hb => hpos b (List.mem_cons_of_mem _ hb)
    have hsum : 0 ≤ (rest.map MemoryBlock.size).sum := by
      apply List.sum_nonneg
      intro x hx
      obtain ⟨b, hb, rfl⟩ := List.mem_map.mp hx
      exact le_of_lt (hrest b hb)
    have hc := hpos c (List.mem_cons_self _ _)
    intro b hb
    simp only [List.map_cons, List.sum_cons]
    rcases List.mem_cons.mp hb with rfl | hb
    · omega
    · have := ih hrest b hb
      omega

theorem partitionInvariant_of_tiles (bs : List MemoryBlock) (ht : Tiles 0 bs 128) :
    PartitionInvariant bs := by
  refine ⟨tiles_ne_nil _ 0 128 ht (by decide), tiles_head _ 0 128 ht, tiles_pos _ 0 128 ht,
    tiles_adjacent _ 0 128 ht, tiles_getLast _ 0 128 ht, ?_⟩
  rw [tiles_sum _ 0 128 ht]
  rfl

theorem fragments_assignAt (process_id num_units : Int) (bs : List MemoryBlock) (i : Nat)
    (b : MemoryBlock) (hb : bs[i]? = some b) (h3 : 3 ≤ num_units) (hfit : num_units ≤ b.size) :
    (((assignAt process_id num_units bs i).filter (fun x => decide x.isFragment)).length : Int)
      = ((bs.filter (fun x => decide x.isFragment)).length : Int) +
        (if b.size - num_units = 1 ∨ b.size - num_units = 2 then 1 else 0) := by
  obtain ⟨h1, h2⟩ := assignAt_eq_take_drop process_id num_units bs i b hb
  generalize bs.take i = T at h1 h2
  generalize bs.drop (i + 1) = D at h1 h2
  rw [h2, h1]
  have hb_not : ¬ b.isFragment := by
    intro hf
    rcases hf.2 with h | h <;> omega
  rcases assignBlock_cases b process_id num_units with ⟨hsz, e⟩ | ⟨hsz, e⟩
  · rw [e]
    have hnew : ¬ (MemoryBlock.isFragment { b with process_id := process_id }) := by
      intro hf
      rcases hf.2 with h | h
      · have : b.size = 1 := h
        omega
      · have : b.size = 2 := h
        omega
    have hif : ¬ (b.size - num_units = 1 ∨ b.size - num_units = 2) := by omega
    simp [List.filter_append, List.filter_cons, hb_not, hnew, hif]
  · rw [e]
    have hnew : ¬ (MemoryBlock.isFragment
        { b with size := num_units, process_id := process_id }) := by
      intro hf
      rcases hf.2 with h | h
      · have : num_units = 1 := h
        omega
      · have : num_units = 2 := h
        omega
    by_cases hif : b.size - num_units = 1 ∨ b.size - num_units = 2
    · have hrem : MemoryBlock.isFragment
          ⟨b.start_address + num_units, b.size - num_units, -1⟩ := ⟨rfl, hif⟩
      simp [List.filter_append, List.filter_cons, hb_not, hnew, hrem, hif]
      omega
    · have hrem : ¬ MemoryBlock.isFragment
          ⟨b.start_address + num_units, b.size - num_units, -1⟩ := fun hf => hif hf.2
      simp [List.filter_append, List.filter_cons, hb_not, hnew, hrem, hif]

theorem mem_assignAt (process_id num_units : Int) (bs : List MemoryBlock) (i : Nat)
    (y : MemoryBlock) (hy : y ∈ assignAt process_id num_units bs i) :
    y ∈ bs ∨ y.process_id = process_id ∨ y.process_id = -1 := by
  induction bs generalizing i with
  | nil => simp [assignAt] at hy
  | cons c rest ih =>
    cases i with
    | zero =>
      simp only [assignAt, List.mem_append] at hy
      rcases hy with hy | hy
      · rcases assignBlock_cases c process_id num_units with ⟨_, e⟩ | ⟨_, e⟩
        · rw [e] at hy
          simp only [List.mem_singleton] at hy
          subst hy
          exact Or.inr (Or.inl rfl)
        · rw [e] at hy
          simp only [List.mem_cons, List.mem_singleton, List.not_mem_nil, or_false] at hy
          rcases hy with rfl | rfl
          · exact Or.inr (Or.inl rfl)
          · exact Or.inr (Or.inr rfl)
      · exact Or.inl (List.mem_cons_of_mem _ hy)
    | succ k =>
      simp only [assignAt, List.mem_cons] at hy
      rcases hy with rfl | hy
      · exact Or.inl (List.mem_cons_self _ _)
      · rcases ih k hy with h | h
        · exact Or.inl (List.mem_cons_of_mem _ h)
        · exact Or.inr h

theorem distinctOwners_assignAt (process_id num_units : Int) (hp : process_id ≠ -1)
    (bs : List MemoryBlock) (i : Nat) (h : DistinctOwners bs)
    (hnew : ∀ b ∈ bs, b.process_id ≠ process_id) :
    DistinctOwners (assignAt process_id num_units bs i) := by
  unfold DistinctOwners at h ⊢
  induction bs generalizing i with
  | nil => simp [assignAt]
  | cons c rest ih =>
    rw [List.pairwise_cons] at h
    have hrest : ∀ b ∈ rest, b.process_id ≠ process_id :=
      fun b hb => hnew b (List.mem_cons_of_mem _ hb)
    cases i with
    | zero =>
      simp only [assignAt]
      rcases assignBlock_cases c process_id num_units with ⟨_, e⟩ | ⟨_, e⟩ <;> rw [e]
      · show List.Pairwise _ (_ :: rest)
        rw [List.pairwise_cons]
        exact ⟨fun y hy _ heq => hrest y hy heq.symm, h.2⟩
      · show List.Pairwise _ (_ :: _ :: rest)
        rw [List.pairwise_cons, List.pairwise_cons]
        refine ⟨?_, fun y _ hne => absurd rfl hne, h.2⟩
        intro y hy _ heq
        rcases List.mem_cons.mp hy with rfl | hy
        · exact hp heq
        · exact hrest y hy heq.symm
    | succ k =>
      simp only [assignAt]
      rw [List.pairwise_cons]
      refine ⟨?_, ih k h.2 hrest⟩
      intro y hy hc heq
      rcases mem_assignAt process_id num_units rest k y hy with hm | hm | hm
      · exact h.1 y hm hc heq
      · exact hnew c (List.mem_cons_self _ _) (heq.trans hm)
      · exact hc (heq.trans hm)

theorem mem_markFreeAt (bs : List MemoryBlock) (k : Nat) (y : MemoryBlock)
    (hy : y ∈ markFreeAt bs k) : y ∈ bs ∨ y.process_id = -1 := by
  induction bs generalizing k with
  | nil => simp [markFreeAt] at hy
  | cons c rest ih =>
    cases k with
    | zero =>
      simp only [markFreeAt, List.mem_cons] at hy
      rcases hy with rfl | hy
      · exact Or.inr rfl
      · exact Or.inl (List.mem_cons_of_mem _ hy)
    | succ k =>
      simp only [markFreeAt, List.mem_cons] at hy
      rcases hy with rfl | hy
      · exact Or.inl (List.mem_cons_self _ _)
      · rcases ih k hy with h | h
        · exact Or.inl (List.mem_cons_of_mem _ h)
        · exact Or.inr h

theorem distinctOwners_markFreeAt (bs : List MemoryBlock) (k : Nat) (h : DistinctOwners bs) :
    DistinctOwners (markFreeAt bs k) := by
  unfold DistinctOwners at h ⊢
  induction bs generalizing k with
  | nil => simp [markFreeAt]
  | cons c rest ih =>
    rw [List.pairwise_cons] at h
    cases k with
    | zero =>
      simp only [markFreeAt]
      rw [List.pairwise_cons]
      exact ⟨fun y _ hne => absurd rfl hne, h.2⟩
    | succ k =>
      simp only [markFreeAt]
      rw [List.pairwise_cons]
      refine ⟨?_, ih k h.2⟩
      intro y hy hc heq
      rcases mem_markFreeAt rest k y hy with hm | hm
      · exact h.1 y hm hc heq
      · exact hc (heq.trans hm)

theorem mem_mergeLoop (rest : List MemoryBlock) (current y : MemoryBlock)
    (hy : y ∈ mergeLoop current rest) : y ∈ current :: rest ∨ y.process_id = -1 := by
  induction rest generalizing current with
  | nil =>
    simp only [mergeLoop, List.mem_singleton] at hy
    subst hy
    exact Or.inl (List.mem_cons_self _ _)
  | cons next rest ih =>
    unfold mergeLoop at hy
    split at hy
    · next hf =>
      rcases ih _ hy with h | h
      · rcases List.mem_cons.mp h with rfl | h
        · exact Or.inr hf.1
        · exact Or.inl (List.mem_cons_of_mem _ (List.mem_cons_of_mem _ h))
      · exact Or.inr h
    · rcases List.mem_cons.mp hy with rfl | hy
      · exact Or.inl (List.mem_cons_self _ _)
      · rcases ih _ hy with h | h
        · exact Or.inl (List.mem_cons_of_mem _ h)
        · exact Or.inr h

theorem distinctOwners_mergeLoop (rest : List MemoryBlock) (current : MemoryBlock)
    (h : DistinctOwners (current :: rest)) : DistinctOwners (mergeLoop current rest) := by
  unfold DistinctOwners at h ⊢
  induction rest generalizing current with
  | nil => simp [mergeLoop]
  | cons next rest ih =>
    rw [List.pairwise_cons, List.pairwise_cons] at h
    unfold mergeLoop
    split
    · next hf =>
      apply ih
      rw [List.pairwise_cons]
      exact ⟨fun y _ hne => absurd hf.1 hne, h.2.2⟩
    · rw [List.pairwise_cons]
      refine ⟨?_, ih next (List.pairwise_cons.mpr h.2)⟩
      intro y hy hc heq
      rcases mem_mergeLoop rest next y hy with hm | hm
      · exact h.1 y hm hc heq
      · exact hc (heq.trans hm)

theorem distinctOwners_merge (bs : List MemoryBlock) (h : DistinctOwners bs) :
    DistinctOwners (merge_adjacent_free_blocks bs) := by
  cases bs with
  | nil => exact h
  | cons c rest => exact distinctOwners_mergeLoop rest c h

theorem distinctOwners_index (bs : List MemoryBlock) (h : DistinctOwners bs) (i j : Nat)
    (x y : MemoryBlock) (hij : i < j) (hx : bs[i]? = some x) (hy : bs[j]? = some y)
    (hown : x.process_id ≠ -1) : x.process_id ≠ y.process_id := by
  unfold DistinctOwners at h
  induction bs generalizing i j with
  | nil => simp at hx
  | cons c rest ih =>
    rw [List.pairwise_cons] at h
    cases j with
    | zero => omega
    | succ j =>
      simp only [List.getElem?_cons_succ] at hy
      cases i with
      | zero =>
        simp only [List.getElem?_cons_zero, Option.some.injEq] at hx
        subst hx
        exact h.1 y (List.getElem?_mem hy) hown
      | succ i =>
        exact ih h.2 i j (by omega) (by simpa using hx) hy

theorem ownerUnique_of_distinctOwners (bs : List MemoryBlock) (h : DistinctOwners bs) :
    OwnerUnique bs := by
  intro i j x y hx hy hown heq
  rcases Nat.lt_trichotomy i j with hlt | heq' | hgt
  · exact absurd heq (distinctOwners_index bs h i j x y hlt hx hy hown)
  · exact heq'
  · have hy' : y.process_id ≠ -1 := fun hne => hown (heq.trans hne)
    exact absurd heq.symm (distinctOwners_index bs h j i y x hgt hy hx hy')

theorem reachableDistinct_distinctOwners (t : Technique) (m : MemoryComponent)
    (h : ReachableDistinct t m) : DistinctOwners m.blocks := by
  induction h with
  | fresh => simp [DistinctOwners, MemoryComponent.fresh]
  | allocate m process_id num_units _ hp _ hnew ih =>
    rcases allocate_mem_blocks t m process_id num_units with h | ⟨_, i, b, _, _, _, h5⟩
    · rw [h]; exact ih
    · rw [h5]
      exact distinctOwners_assignAt process_id num_units (by omega) m.blocks i ih hnew
  | deallocate m process_id _ _ _ ih =>
    rcases deallocate_mem_blocks t m process_id with h | ⟨k, h⟩
    · rw [h]; exact ih
    · rw [h]
      exact distinctOwners_merge _ (distinctOwners_markFreeAt m.blocks k ih)

theorem mergeLoop_free (rest : List MemoryBlock) (current : MemoryBlock)
    (hf : current.process_id = -1) :
    mergeLoop current rest =
      { start_address := current.start_address
        size := current.size +
          ((rest.takeWhile (fun x => decide (x.process_id = -1))).map MemoryBlock.size).sum
        process_id := -1 }
        :: merge_adjacent_free_blocks
            (rest.dropWhile (fun x => decide (x.process_id = -1))) := by
  induction rest generalizing current with
  | nil =>
    cases current
    simp_all [mergeLoop, merge_adjacent_free_blocks]
  | cons next rest ih =>
    by_cases hn : next.process_id = -1
    · have hf' : (MemoryBlock.mk current.start_address (current.size + next.size)
          current.process_id).process_id = -1 := hf
      rw [mergeLoop, if_pos ⟨hf, hn⟩, ih _ hf']
      simp only [List.takeWhile_cons, List.dropWhile_cons, hn, decide_True, if_true,
        List.map_cons, List.sum_cons, add_assoc]
    · have hcond : ¬ (current.process_id = -1 ∧ next.process_id = -1) := fun h => hn h.2
      rw [mergeLoop, if_neg hcond]
      simp only [List.takeWhile_cons, List.dropWhile_cons, hn, decide_False,
        List.map_nil, List.sum_nil, add_zero, merge_adjacent_free_blocks]
      cases current
      simp_all

theorem mergeLoop_owned (rest : List MemoryBlock) (current : MemoryBlock)
    (hf : current.process_id ≠ -1) :
    mergeLoop current rest = current :: merge_adjacent_free_blocks rest := by
  cases rest with
  | nil => rfl
  | cons next rest =>
    have hcond : ¬ (current.process_id = -1 ∧ next.process_id = -1) := fun h => hf h.1
    rw [mergeLoop, if_neg hcond]
    rfl

theorem merge_eq_maximalFreeRuns_aux (n : Nat) :
    ∀ bs : List MemoryBlock, bs.length ≤ n →
      merge_adjacent_free_blocks bs = maximalFreeRuns bs := by
  induction n with
  | zero =>
    intro bs hlen
    have : bs = [] := List.length_eq_zero.mp (by omega)
    subst this
    rw [maximalFreeRuns]
    rfl
  | succ n ih =>
    intro bs hlen
    cases bs with
    | nil => rw [maximalFreeRuns]; rfl
    | cons b rest =>
      simp only [List.length_cons] at hlen
      rw [maximalFreeRuns]
      show mergeLoop b rest = _
      by_cases hb : b.process_id = -1
      · rw [if_pos hb, mergeLoop_free rest b hb]
        have hdrop : (rest.dropWhile (fun x => decide (x.process_id = -1))).length ≤ n :=
          le_trans (List.dropWhile_sublist _).length_le (by omega)
        rw [ih _ hdrop]
      · rw [if_neg hb, mergeLoop_owned rest b hb, ih rest (by omega)]

theorem mergeLoop_owned_blocks (rest : List MemoryBlock) (current : MemoryBlock) :
    (mergeLoop current rest).filter (fun b => decide (b.process_id ≠ -1)) =
      (current :: rest).filter (fun b => decide (b.process_id ≠ -1)) := by
  induction rest generalizing current with
  | nil => rfl
  | cons next rest ih =>
    unfold mergeLoop
    split
    · next hf =>
      rw [ih]
      simp [List.filter_cons, hf.1, hf.2]
    · simp only [List.filter_cons, ih next]

theorem mergeLoop_sum (rest : List MemoryBlock) (current : MemoryBlock) :
    ((mergeLoop current rest).map MemoryBlock.size).sum =
      ((current :: rest).map MemoryBlock.size).sum := by
  induction rest generalizing current with
  | nil => rfl
  | cons next rest ih =>
    unfold mergeLoop
    split
    · rw [ih]
      simp only [List.map_cons, List.sum_cons]
      omega
    · simp only [List.map_cons, List.sum_cons] at ih ⊢
      rw [ih next]

/-! ## Claims -/

/-- C1. Partition invariant: in every state reachable from a freshly constructed First-Fit
or Best-Fit allocator by `allocate_mem` / `deallocate_mem` calls (process ids in `0..999`,
arbitrary integer sizes) the block list is non-empty, the first block starts at 0, every
block has size `> 0`, every block ends where its successor starts, the last block ends at
128 and the sizes sum to 128. -/
theorem partition_invariant (t : Technique) (m : MemoryComponent) (h : Reachable t m) :
    PartitionInvariant m.blocks := by
  have ht := reachable_tiles t m h
  refine ⟨tiles_ne_nil _ 0 128 ht (by decide), tiles_head _ 0 128 ht, tiles_pos _ 0 128 ht,
    tiles_adjacent _ 0 128 ht, tiles_getLast _ 0 128 ht, ?_⟩
  rw [tiles_sum _ 0 128 ht]
  rfl

/-- Instance of C1 on the First-Fit state reached by tests 1, 2 and 4 of `main.cpp`. -/
theorem partition_invariant_witness :
    Reachable .firstFit firstFitAfterTests ∧ PartitionInvariant firstFitAfterTests.blocks :=
  ⟨firstFitAfterTests_reachable,
    partition_invariant .firstFit firstFitAfterTests firstFitAfterTests_reachable⟩

/-- C2. Coalescing invariant: in every state reachable from a freshly constructed First-Fit
or Best-Fit allocator by `allocate_mem` / `deallocate_mem` calls (process ids in `0..999`)
no two adjacent blocks of the list are both free. -/
theorem coalescing_invariant (t : Technique) (m : MemoryComponent) (h : Reachable t m) :
    CoalescingInvariant m.blocks :=
  noAdjacentFree_index m.blocks (reachable_noAdjacentFree t m h)

/-- Instance of C2 on the Best-Fit state reached by tests 1, 2 and 4 of `main.cpp`. -/
theorem coalescing_invariant_witness :
    Reachable .bestFit bestFitAfterTests ∧ CoalescingInvariant bestFitAfterTests.blocks :=
  ⟨bestFitAfterTests_reachable,
    coalescing_invariant .bestFit bestFitAfterTests bestFitAfterTests_reachable⟩

/-- C3 (defect of the code). The index is positional and is not maintained when nodes are
merged or inserted in front of a block.  First-Fit: after `allocate_mem(1,5)`,
`allocate_mem(2,5)`, `allocate_mem(3,5)`, `deallocate_mem(1)`, `deallocate_mem(2)`, every
call having succeeded, process 3 is live and owns the block at position 1, but
`process_map[3]` is still 2 and the walk from the head ends on the free block at 15.
Best-Fit stores the position of the last node instead of the chosen one: after
`allocate_mem(1,5)`, `allocate_mem(2,8)`, `deallocate_mem(1)`, `allocate_mem(3,5)` process 3
owns the block at position 0 while `process_map[3]` is 2, the free block at 13. -/
theorem index_invariant_violated :
    (runCalls .firstFit MemoryComponent.fresh
      [.allocate 1 5, .allocate 2 5, .allocate 3 5, .deallocate 1, .deallocate 2]).1
        = [1, 2, 3, 1, 1] ∧
    (runCalls .firstFit MemoryComponent.fresh
      [.allocate 1 5, .allocate 2 5, .allocate 3 5, .deallocate 1, .deallocate 2]).2.blocks
        = [⟨0, 10, -1⟩, ⟨10, 5, 3⟩, ⟨15, 113, -1⟩] ∧
    (runCalls .firstFit MemoryComponent.fresh
      [.allocate 1 5, .allocate 2 5, .allocate 3 5, .deallocate 1, .deallocate 2]).2.process_map 3
        = 2 ∧
    (runCalls .bestFit MemoryComponent.fresh
      [.allocate 1 5, .allocate 2 8, .deallocate 1, .allocate 3 5]).1 = [1, 2, 1, 3] ∧
    (runCalls .bestFit MemoryComponent.fresh
      [.allocate 1 5, .allocate 2 8, .deallocate 1, .allocate 3 5]).2.blocks
        = [⟨0, 5, 3⟩, ⟨5, 8, 2⟩, ⟨13, 115, -1⟩] ∧
    (runCalls .bestFit MemoryComponent.fresh
      [.allocate 1 5, .allocate 2 8, .deallocate 1, .allocate 3 5]).2.process_map 3 = 2 := by
  decide

/-- C4 (defect of the code). First-Fit, after `allocate_mem(1..4, 5)`, `deallocate_mem(1)`,
`deallocate_mem(2)`: `process_map[3]` is 2, where the block of process 4 now sits.
`deallocate_mem(3)` returns 1, frees the block of process 4 and leaves the block of
process 3 in the list.  With `allocate_mem(1..3, 5)` instead, the same call returns 1 on a
block that was already free and the list does not change. -/
theorem deallocate_frees_wrong_block :
    (runCalls .firstFit MemoryComponent.fresh
      [.allocate 1 5, .allocate 2 5, .allocate 3 5, .allocate 4 5,
       .deallocate 1, .deallocate 2]).2.blocks
        = [⟨0, 10, -1⟩, ⟨10, 5, 3⟩, ⟨15, 5, 4⟩, ⟨20, 108, -1⟩] ∧
    (runCalls .firstFit MemoryComponent.fresh
      [.allocate 1 5, .allocate 2 5, .allocate 3 5, .allocate 4 5,
       .deallocate 1, .deallocate 2]).2.process_map 3 = 2 ∧
    (runCalls .firstFit MemoryComponent.fresh
      [.allocate 1 5, .allocate 2 5, .allocate 3 5, .allocate 4 5,
       .deallocate 1, .deallocate 2, .deallocate 3]).1 = [1, 2, 3, 4, 1, 1, 1] ∧
    (runCalls .firstFit MemoryComponent.fresh
      [.allocate 1 5, .allocate 2 5, .allocate 3 5, .allocate 4 5,
       .deallocate 1, .deallocate 2, .deallocate 3]).2.blocks
        = [⟨0, 10, -1⟩, ⟨10, 5, 3⟩, ⟨15, 113, -1⟩] ∧
    (runCalls .firstFit MemoryComponent.fresh
      [.allocate 1 5, .allocate 2 5, .allocate 3 5, .deallocate 1, .deallocate 2]).2.blocks
        = [⟨0, 10, -1⟩, ⟨10, 5, 3⟩, ⟨15, 113, -1⟩] ∧
    (runCalls .firstFit MemoryComponent.fresh
      [.allocate 1 5, .allocate 2 5, .allocate 3 5, .deallocate 1, .deallocate 2,
       .deallocate 3]).1 = [1, 2, 3, 1, 1, 1] ∧
    (runCalls .firstFit MemoryComponent.fresh
      [.allocate 1 5, .allocate 2 5, .allocate 3 5, .deallocate 1, .deallocate 2,
       .deallocate 3]).2.blocks
        = [⟨0, 10, -1⟩, ⟨10, 5, 3⟩, ⟨15, 113, -1⟩] := by
  decide

/-- C5 (defect of the code). Twelve `allocate_mem(i, 10)` for `i = 1..12` and
`allocate_mem(13, 8)` fill the memory exactly; `deallocate_mem(1)` and `deallocate_mem(2)`
then succeed and merge the first two blocks, so the list has 12 blocks.  Process 13 is live
and still owns the block `[120, 8]`, now at position 11, but `process_map[13]` is still 12:
the walk of `deallocate_mem(13)` runs off the end of the list and the call returns -1
although the entry is not -1.  The same happens under both strategies. -/
theorem deallocate_fails_for_live_process :
    (runCalls .firstFit MemoryComponent.fresh fillThenFreeTwo).1
      = [1, 2, 3, 4, 5, 6, 7, 8, 9, 10, 11, 12, 13, 1, 1] ∧
    (runCalls .firstFit MemoryComponent.fresh fillThenFreeTwo).2.blocks
      = [⟨0, 20, -1⟩, ⟨20, 10, 3⟩, ⟨30, 10, 4⟩, ⟨40, 10, 5⟩, ⟨50, 10, 6⟩, ⟨60, 10, 7⟩,
         ⟨70, 10, 8⟩, ⟨80, 10, 9⟩, ⟨90, 10, 10⟩, ⟨100, 10, 11⟩, ⟨110, 10, 12⟩,
         ⟨120, 8, 13⟩] ∧
    (runCalls .firstFit MemoryComponent.fresh fillThenFreeTwo).2.process_map 13 = 12 ∧
    (deallocate_mem .firstFit
      (runCalls .firstFit MemoryComponent.fresh fillThenFreeTwo).2 13).1 = -1 ∧
    (runCalls .bestFit MemoryComponent.fresh fillThenFreeTwo).1
      = [1, 2, 3, 4, 5, 6, 7, 8, 9, 10, 11, 12, 13, 1, 1] ∧
    (runCalls .bestFit MemoryComponent.fresh fillThenFreeTwo).2.blocks
      = (runCalls .firstFit MemoryComponent.fresh fillThenFreeTwo).2.blocks ∧
    (runCalls .bestFit MemoryComponent.fresh fillThenFreeTwo).2.process_map 13 = 12 ∧
    (deallocate_mem .bestFit
      (runCalls .bestFit MemoryComponent.fresh fillThenFreeTwo).2 13).1 = -1 := by
  decide

/-- C6. In every reachable state of either allocator, for every process id and every integer
`n`, `allocate_mem` returns -1 exactly when `n < 3`, `n > 10` or no free block of the list
has size `>= n`; otherwise it returns a positive integer.  In particular, once no free block
of size `>= 3` remains, every `allocate_mem` call fails. -/
theorem allocate_mem_fails_iff (t : Technique) (m : MemoryComponent) (h : Reachable t m)
    (process_id num_units : Int) :
    ((allocate_mem t m process_id num_units).1 = -1 ↔
      (num_units < 3 ∨ num_units > 10 ∨
        ¬ ∃ b ∈ m.blocks, b.process_id = -1 ∧ b.size ≥ num_units)) ∧
    ((allocate_mem t m process_id num_units).1 ≠ -1 →
      0 < (allocate_mem t m process_id num_units).1) ∧
    ((¬ ∃ b ∈ m.blocks, b.process_id = -1 ∧ b.size ≥ 3) →
      ∀ p n : Int, (allocate_mem t m p n).1 = -1) := by
  have hsize := tiles_size_le m.blocks 0 128 (reachable_tiles t m h)
  have key : ∀ p n : Int, ((allocate_mem t m p n).1 = -1 ↔
      (n < 3 ∨ n > 10 ∨ ¬ ∃ b ∈ m.blocks, b.process_id = -1 ∧ b.size ≥ n)) ∧
      ((allocate_mem t m p n).1 ≠ -1 → 0 < (allocate_mem t m p n).1) := by
    intro p n
    rcases allocate_mem_result t m p n with ⟨h1, h2⟩ | ⟨h1, h2, h3, b, hb, hf, hn⟩
    · rw [h1]
      refine ⟨⟨fun _ => ?_, fun _ => rfl⟩, fun hne => absurd rfl hne⟩
      rcases h2 with h2 | h2 | h2
      · exact Or.inl h2
      · exact Or.inr (Or.inl h2)
      · right; right
        rintro ⟨b, hb, hf, hn⟩
        have := hsize b hb
        exact h2 b hb ⟨hf, hn, by omega⟩
    · refine ⟨⟨fun hr => ?_, fun hc => ?_⟩, fun _ => h3⟩
      · omega
      · rcases hc with hc | hc | hc
        · omega
        · omega
        · exact absurd ⟨b, hb, hf, hn⟩ hc
  refine ⟨(key process_id num_units).1, (key process_id num_units).2, ?_⟩
  intro hnone p n
  refine ((key p n).1).mpr ?_
  by_cases hn : n < 3
  · exact Or.inl hn
  · right; right
    rintro ⟨b, hb, hf, hbn⟩
    exact hnone ⟨b, hb, hf, by omega⟩

/-- Instance of C6: `allocate_mem(3, 5)` on the Best-Fit state reached by tests 1, 2 and 4
of `main.cpp`. -/
theorem allocate_mem_fails_iff_witness :
    Reachable .bestFit bestFitAfterTests ∧
    (((allocate_mem .bestFit bestFitAfterTests 3 5).1 = -1 ↔
      ((5 : Int) < 3 ∨ (5 : Int) > 10 ∨
        ¬ ∃ b ∈ bestFitAfterTests.blocks, b.process_id = -1 ∧ b.size ≥ 5)) ∧
    ((allocate_mem .bestFit bestFitAfterTests 3 5).1 ≠ -1 →
      0 < (allocate_mem .bestFit bestFitAfterTests 3 5).1) ∧
    ((¬ ∃ b ∈ bestFitAfterTests.blocks, b.process_id = -1 ∧ b.size ≥ 3) →
      ∀ p n : Int, (allocate_mem .bestFit bestFitAfterTests p n).1 = -1)) :=
  ⟨bestFitAfterTests_reachable,
    allocate_mem_fails_iff .bestFit bestFitAfterTests bestFitAfterTests_reachable 3 5⟩

/-- C7. Failures are no-ops: for either allocator, any state and any arguments (in
particular any process id in `0..999`), when
`allocate_mem` returns -1 or `deallocate_mem` returns -1 the whole state (block list,
`process_map`, `process_count`) is the one before the call; a request whose size is outside
`[3, 10]` returns -1 and never changes the state. -/
theorem failures_are_no_ops (t : Technique) (m : MemoryComponent)
    (process_id num_units : Int) :
    ((allocate_mem t m process_id num_units).1 = -1 →
      (allocate_mem t m process_id num_units).2 = m) ∧
    ((deallocate_mem t m process_id).1 = -1 → (deallocate_mem t m process_id).2 = m) ∧
    ((num_units < 3 ∨ num_units > 10) → allocate_mem t m process_id num_units = (-1, m)) := by
  refine ⟨?_, ?_, ?_⟩
  · intro hr
    rcases allocate_mem_result t m process_id num_units with ⟨h1, _⟩ | ⟨_, _, h3, _⟩
    · rw [h1]
    · omega
  · have key : (m.deallocate_mem process_id).1 = -1 → (m.deallocate_mem process_id).2 = m := by
      intro hr
      rcases deallocate_mem_cases m process_id with ⟨h1, _⟩ | ⟨_, _, h3⟩
      · rw [h1]
      · rw [h3] at hr
        have h1ne : (1 : Int) ≠ -1 := by decide
        exact absurd hr h1ne
    cases t <;> exact key
  · intro hn
    rcases allocate_mem_result t m process_id num_units with ⟨h1, _⟩ | ⟨h1, h2, _⟩
    · exact h1
    · omega

/-- Instance of C7: `allocate_mem(4, 2)` (invalid size) and `deallocate_mem(4)` (no entry)
both return -1 on the First-Fit state of tests 1, 2 and 4 and leave it as it was. -/
theorem failures_are_no_ops_witness :
    (allocate_mem .firstFit firstFitAfterTests 4 2).1 = -1 ∧
    (allocate_mem .firstFit firstFitAfterTests 4 2).2 = firstFitAfterTests ∧
    (deallocate_mem .firstFit firstFitAfterTests 4).1 = -1 ∧
    (deallocate_mem .firstFit firstFitAfterTests 4).2 = firstFitAfterTests ∧
    allocate_mem .firstFit firstFitAfterTests 4 2 = (-1, firstFitAfterTests) :=
  ⟨by decide,
    (failures_are_no_ops .firstFit firstFitAfterTests 4 2).1 (by decide),
    by decide,
    (failures_are_no_ops .firstFit firstFitAfterTests 4 2).2.1 (by decide),
    (failures_are_no_ops .firstFit firstFitAfterTests 4 2).2.2 (by decide)⟩

/-- C8. First-Fit selection: on every block list, when `FirstFitMemory::allocate_mem(p, n)`
returns `k > 0` (which only happens for `n` in `[3, 10]`), the block at position `k - 1` of
the list before the call is free with size `>= n`, no earlier block is free with size
`>= n`, the blocks at positions below `k - 1` are unchanged, and after the call the block
at position `k - 1` has the same start, size `n` and owner `p`; `k` is the number of blocks
visited up to and including the match. -/
theorem firstFit_selection (m : MemoryComponent) (process_id num_units k : Int)
    (hret : (FirstFitMemory.allocate_mem m process_id num_units).1 = k) (hk : 0 < k) :
    3 ≤ num_units ∧ num_units ≤ 10 ∧
    ∃ (i : Nat) (b : MemoryBlock), k = (i : Int) + 1 ∧ m.blocks[i]? = some b ∧
      b.process_id = -1 ∧ b.size ≥ num_units ∧
      (∀ (j : Nat) (c : MemoryBlock), j < i → m.blocks[j]? = some c →
        ¬ (c.process_id = -1 ∧ c.size ≥ num_units)) ∧
      (∀ j : Nat, j < i →
        (FirstFitMemory.allocate_mem m process_id num_units).2.blocks[j]? = m.blocks[j]?) ∧
      (FirstFitMemory.allocate_mem m process_id num_units).2.blocks[i]? =
        some ⟨b.start_address, num_units, process_id⟩ := by
  rcases firstFit_allocate_mem_cases m process_id num_units with
    ⟨h1, _⟩ | ⟨h1, h2, i, b, h3, h4, h5, h6, h7⟩
  · rw [h1] at hret
    have : k = -1 := hret.symm
    omega
  · refine ⟨h1, h2, i, b, ?_, h3, h4, h5, h6, ?_, ?_⟩
    · rw [h7] at hret
      rw [← hret]
      show ((i + 1 : Nat) : Int) = (i : Int) + 1
      omega
    · intro j hj
      rw [h7]
      exact assignAt_getElem_lt process_id num_units m.blocks i j hj
    · rw [h7]
      exact assignAt_getElem_self process_id num_units m.blocks i b h3

/-- Instance of C8: `allocate_mem(3, 6)` on the list `[0,5,free] [5,8,owner 2]
[13,115,free]` returns 3, the free block at position 0 being too small. -/
theorem firstFit_selection_witness :
    (FirstFitMemory.allocate_mem firstFitAfterTests 3 6).1 = 3 ∧
    (3 : Int) ≤ 6 ∧ (6 : Int) ≤ 10 ∧
    ∃ (i : Nat) (b : MemoryBlock), (3 : Int) = (i : Int) + 1 ∧
      firstFitAfterTests.blocks[i]? = some b ∧
      b.process_id = -1 ∧ b.size ≥ 6 ∧
      (∀ (j : Nat) (c : MemoryBlock), j < i → firstFitAfterTests.blocks[j]? = some c →
        ¬ (c.process_id = -1 ∧ c.size ≥ 6)) ∧
      (∀ j : Nat, j < i →
        (FirstFitMemory.allocate_mem firstFitAfterTests 3 6).2.blocks[j]? =
          firstFitAfterTests.blocks[j]?) ∧
      (FirstFitMemory.allocate_mem firstFitAfterTests 3 6).2.blocks[i]? =
        some ⟨b.start_address, 6, 3⟩ :=
  ⟨by decide, firstFit_selection firstFitAfterTests 3 6 3 (by decide) (by decide)⟩

/-- C9. Best-Fit selection: in every reachable state, when
`BestFitMemory::allocate_mem(p, n)` succeeds (which only happens for `n` in `[3, 10]`) its
return value is the length of the block list before the call, and the block given to `p`
(start unchanged, size `n`, owner `p`, same position) is carved from a free block of size
`>= n` whose size is minimal among all free blocks of size `>= n`; every earlier such block
is strictly larger, and every block of the same minimal size starts at the same or a higher
address. -/
theorem bestFit_selection (m : MemoryComponent) (h : Reachable .bestFit m)
    (process_id num_units : Int)
    (hs : (BestFitMemory.allocate_mem m process_id num_units).1 ≠ -1) :
    3 ≤ num_units ∧ num_units ≤ 10 ∧
    (BestFitMemory.allocate_mem m process_id num_units).1 = (m.blocks.length : Int) ∧
    ∃ (i : Nat) (b : MemoryBlock), m.blocks[i]? = some b ∧
      b.process_id = -1 ∧ b.size ≥ num_units ∧
      (∀ (j : Nat) (c : MemoryBlock), m.blocks[j]? = some c → c.process_id = -1 →
        c.size ≥ num_units →
          b.size ≤ c.size ∧ (j < i → b.size < c.size) ∧
          (c.size = b.size → b.start_address ≤ c.start_address)) ∧
      (BestFitMemory.allocate_mem m process_id num_units).2.blocks[i]? =
        some ⟨b.start_address, num_units, process_id⟩ := by
  have ht := reachable_tiles .bestFit m h
  rcases bestFit_allocate_mem_cases m process_id num_units with
    ⟨h1, _⟩ | ⟨h1, h2, i, b, h3, h4, h5, h6, h7, h8⟩
  · rw [h1] at hs
    exact absurd rfl hs
  · refine ⟨h1, h2, by rw [h8], i, b, h3, h4, h5, ?_, ?_⟩
    · intro j c hc hcf hcn
      refine ⟨h6 j c hc hcf hcn, fun hj => h7 j c hj hc hcf hcn, fun heq => ?_⟩
      rcases Nat.lt_trichotomy j i with hlt | heq' | hgt
      · have := h7 j c hlt hc hcf hcn
        omega
      · subst heq'
        rw [h3] at hc
        simp only [Option.some.injEq] at hc
        subst hc
        exact le_refl _
      · exact le_of_lt (tiles_start_lt m.blocks 0 128 ht i j b c hgt h3 hc)
    · rw [h8]
      exact assignAt_getElem_self process_id num_units m.blocks i b h3

/-- Instance of C9: `allocate_mem(3, 5)` on the list `[0,5,free] [5,8,owner 2]
[13,115,free]` succeeds. -/
theorem bestFit_selection_witness :
    Reachable .bestFit bestFitAfterTests ∧
    (BestFitMemory.allocate_mem bestFitAfterTests 3 5).1 ≠ -1 ∧
    (3 : Int) ≤ 5 ∧ (5 : Int) ≤ 10 ∧
    (BestFitMemory.allocate_mem bestFitAfterTests 3 5).1 =
      (bestFitAfterTests.blocks.length : Int) ∧
    ∃ (i : Nat) (b : MemoryBlock), bestFitAfterTests.blocks[i]? = some b ∧
      b.process_id = -1 ∧ b.size ≥ 5 ∧
      (∀ (j : Nat) (c : MemoryBlock), bestFitAfterTests.blocks[j]? = some c →
        c.process_id = -1 → c.size ≥ 5 →
          b.size ≤ c.size ∧ (j < i → b.size < c.size) ∧
          (c.size = b.size → b.start_address ≤ c.start_address)) ∧
      (BestFitMemory.allocate_mem bestFitAfterTests 3 5).2.blocks[i]? =
        some ⟨b.start_address, 5, 3⟩ :=
  ⟨bestFitAfterTests_reachable, by decide,
    bestFit_selection bestFitAfterTests bestFitAfterTests_reachable 3 5 (by decide)⟩

/-- C10. Round-trip under First-Fit: in every reachable state of a `FirstFitMemory`, for
every process id (in particular those in `0..999`) and every `n`, when `allocate_mem(p, n)` succeeds the
immediately following `deallocate_mem(p)` returns 1 and leaves a block list equal (starts,
sizes, owners, order) to the one before the allocation. -/
theorem firstFit_round_trip (m : MemoryComponent) (h : Reachable .firstFit m)
    (process_id num_units : Int)
    (hs : 0 < (FirstFitMemory.allocate_mem m process_id num_units).1) :
    (FirstFitMemory.deallocate_mem
      (FirstFitMemory.allocate_mem m process_id num_units).2 process_id).1 = 1 ∧
    (FirstFitMemory.deallocate_mem
      (FirstFitMemory.allocate_mem m process_id num_units).2 process_id).2.blocks
        = m.blocks := by
  have hna := reachable_noAdjacentFree .firstFit m h
  rcases firstFit_allocate_mem_cases m process_id num_units with
    ⟨h1, _⟩ | ⟨_, _, i, b, h3, h4, _, _, h7⟩
  · rw [h1] at hs
    have hneg : ¬ (0 : Int) < -1 := by decide
    exact absurd hs hneg
  · rw [h7]
    simp only
    have hself := assignAt_getElem_self process_id num_units m.blocks i b h3
    rcases deallocate_mem_cases
      { blocks := assignAt process_id num_units m.blocks i
        process_map := fun q => if q = process_id then (i : Int) else m.process_map q
        process_count := m.process_count + 1 } process_id with ⟨_, hbad⟩ | ⟨_, _, hd⟩
    · exfalso
      simp only [if_true] at hbad
      rcases hbad with hbad | hbad
      · omega
      · rw [Int.toNat_ofNat] at hbad
        rw [List.getElem?_eq_none hbad] at hself
        simp at hself
    · show (MemoryComponent.deallocate_mem _ process_id).1 = 1 ∧
        (MemoryComponent.deallocate_mem _ process_id).2.blocks = m.blocks
      rw [hd]
      refine ⟨rfl, ?_⟩
      simp only [if_true, Int.toNat_ofNat]
      exact merge_markFreeAt_assignAt process_id num_units m.blocks i b hna h3 h4

/-- Instance of C10: `allocate_mem(3, 6)` then `deallocate_mem(3)` on the First-Fit state of
tests 1, 2 and 4. -/
theorem firstFit_round_trip_witness :
    Reachable .firstFit firstFitAfterTests ∧
    0 < (FirstFitMemory.allocate_mem firstFitAfterTests 3 6).1 ∧
    (FirstFitMemory.deallocate_mem
      (FirstFitMemory.allocate_mem firstFitAfterTests 3 6).2 3).1 = 1 ∧
    (FirstFitMemory.deallocate_mem
      (FirstFitMemory.allocate_mem firstFitAfterTests 3 6).2 3).2.blocks
        = firstFitAfterTests.blocks :=
  ⟨firstFitAfterTests_reachable, by decide,
    firstFit_round_trip firstFitAfterTests firstFitAfterTests_reachable 3 6 (by decide)⟩

/-- C11 (defect of the code). Best-Fit, after `allocate_mem(1,5)`, `allocate_mem(2,8)`,
`deallocate_mem(1)` the list is `[0,5,free] [5,8,owner 2] [13,115,free]`.
`allocate_mem(3,5)` succeeds on the block at 0 but stores position 2 (the last node) in
`process_map[3]`; the immediately following `deallocate_mem(3)` returns 1 on the free block
at 13 and the list stays `[0,5,owner 3] [5,8,owner 2] [13,115,free]`, not the list before
the allocation.  First-Fit restores it on the same calls. -/
theorem bestFit_round_trip_violated :
    bestFitAfterTests.blocks = [⟨0, 5, -1⟩, ⟨5, 8, 2⟩, ⟨13, 115, -1⟩] ∧
    (BestFitMemory.allocate_mem bestFitAfterTests 3 5).1 = 3 ∧
    (BestFitMemory.allocate_mem bestFitAfterTests 3 5).2.process_map 3 = 2 ∧
    (BestFitMemory.deallocate_mem (BestFitMemory.allocate_mem bestFitAfterTests 3 5).2 3).1
      = 1 ∧
    (BestFitMemory.deallocate_mem
      (BestFitMemory.allocate_mem bestFitAfterTests 3 5).2 3).2.blocks
      = [⟨0, 5, 3⟩, ⟨5, 8, 2⟩, ⟨13, 115, -1⟩] ∧
    (FirstFitMemory.deallocate_mem
      (FirstFitMemory.allocate_mem firstFitAfterTests 3 5).2 3).2.blocks
      = firstFitAfterTests.blocks := by
  decide

/-- C12. `fragment_count` is a pure read that counts fragments: for either allocator and
every state it returns the number of blocks of the list that are free and have size 1 or
2, and the state after the call (block list, `process_map`, `process_count`) is the state
before it, so a repeated call returns the same value. -/
theorem fragment_count_pure (t : Technique) (m : MemoryComponent) :
    (fragment_count t m).1 =
      ((m.blocks.filter
        (fun b => decide (b.process_id = -1 ∧ (b.size = 1 ∨ b.size = 2)))).length : Int) ∧
    (fragment_count t m).2 = m ∧
    (fragment_count t (fragment_count t m).2).1 = (fragment_count t m).1 := by
  have key : (m.fragment_count, m).1 =
      ((m.blocks.filter
        (fun b => decide (b.process_id = -1 ∧ (b.size = 1 ∨ b.size = 2)))).length : Int) :=
    fragment_count_eq m
  cases t
  · exact ⟨key, rfl, rfl⟩
  · exact ⟨key, rfl, rfl⟩

/-- C13 as stated fails. On a fresh allocator `allocate_mem(1, 128)` returns -1 under both
strategies, because 128 is above the upper bound 10 of the size guard. -/
theorem allocate_whole_memory_rejected :
    ¬ (0 < (allocate_mem .firstFit MemoryComponent.fresh 1 128).1) ∧
    ¬ (0 < (allocate_mem .bestFit MemoryComponent.fresh 1 128).1) ∧
    (allocate_mem .firstFit MemoryComponent.fresh 1 128).2.blocks = [⟨0, 128, -1⟩] ∧
    (allocate_mem .bestFit MemoryComponent.fresh 1 128).2.blocks = [⟨0, 128, -1⟩] := by
  decide

/-- C13, amended. On a freshly constructed allocator, under either strategy and for every
process id, `allocate_mem(p, 128)` returns -1 and leaves the state as constructed: the
block list is still exactly one block, of size 128 and free. -/
theorem allocate_whole_memory_fails (t : Technique) (process_id : Int) :
    allocate_mem t MemoryComponent.fresh process_id 128 = (-1, MemoryComponent.fresh) ∧
    (allocate_mem t MemoryComponent.fresh process_id 128).2.blocks = [⟨0, 128, -1⟩] := by
  cases t <;> exact ⟨rfl, rfl⟩

/-- C15. Strategy divergence scenario: from a fresh allocator, after `allocate_mem(1, 5)`,
`allocate_mem(2, 8)`, `deallocate_mem(1)`, the call `allocate_mem(3, 5)` puts process 3 in
the block at address 0 of size 5 under both strategies, with final list `[0,5,owner 3]
[5,8,owner 2] [13,115,free]`; Best-Fit returns 3, the length of the list it scanned, and
First-Fit returns 1. -/
theorem strategy_divergence_scenario :
    (runCalls .firstFit MemoryComponent.fresh
      [.allocate 1 5, .allocate 2 8, .deallocate 1, .allocate 3 5]).1 = [1, 2, 1, 1] ∧
    (runCalls .firstFit MemoryComponent.fresh
      [.allocate 1 5, .allocate 2 8, .deallocate 1, .allocate 3 5]).2.blocks
        = [⟨0, 5, 3⟩, ⟨5, 8, 2⟩, ⟨13, 115, -1⟩] ∧
    (runCalls .bestFit MemoryComponent.fresh
      [.allocate 1 5, .allocate 2 8, .deallocate 1, .allocate 3 5]).1 = [1, 2, 1, 3] ∧
    (runCalls .bestFit MemoryComponent.fresh
      [.allocate 1 5, .allocate 2 8, .deallocate 1, .allocate 3 5]).2.blocks
        = [⟨0, 5, 3⟩, ⟨5, 8, 2⟩, ⟨13, 115, -1⟩] ∧
    (runCalls .bestFit MemoryComponent.fresh
      [.allocate 1 5, .allocate 2 8, .deallocate 1]).2.blocks.length = 3 := by
  decide

/-- C18. `merge_adjacent_free_blocks` is idempotent: on every block list, a second merge
pass over the result of a merge pass changes nothing. -/
theorem merge_idempotent (bs : List MemoryBlock) :
    merge_adjacent_free_blocks (merge_adjacent_free_blocks bs) =
      merge_adjacent_free_blocks bs := by
  have h := noAdjacentFree_merge bs
  cases hm : merge_adjacent_free_blocks bs with
  | nil => rfl
  | cons c rest =>
    rw [hm] at h
    exact mergeLoop_of_noAdjacentFree rest c h

/-- C16. Split postcondition: for either allocator, when `allocate_mem(p, n)` succeeds, the
chosen block is a free block `(a, s, free)` with `s >= n` at some position of the list, and
the new list is the old one with that block replaced by the single block `(a, n, owner p)`
when `s == n` (same length), and by the two blocks `(a, n, owner p)`, `(a + n, s - n, free)`
in that order when `s > n` (one block more); the blocks before and after it are kept as
they are, in the same order. -/
theorem split_postcondition (t : Technique) (m : MemoryComponent)
    (process_id num_units : Int) (hs : 0 < (allocate_mem t m process_id num_units).1) :
    ∃ (i : Nat) (b : MemoryBlock), m.blocks[i]? = some b ∧ b.process_id = -1 ∧
      ((b.size = num_units ∧
        (allocate_mem t m process_id num_units).2.blocks =
          m.blocks.take i ++ [⟨b.start_address, num_units, process_id⟩]
            ++ m.blocks.drop (i + 1) ∧
        (allocate_mem t m process_id num_units).2.blocks.length = m.blocks.length) ∨
      (b.size > num_units ∧
        (allocate_mem t m process_id num_units).2.blocks =
          m.blocks.take i ++
            [⟨b.start_address, num_units, process_id⟩,
             ⟨b.start_address + num_units, b.size - num_units, -1⟩]
            ++ m.blocks.drop (i + 1) ∧
        (allocate_mem t m process_id num_units).2.blocks.length = m.blocks.length + 1)) := by
  obtain ⟨_, _, i, b, h3, h4, h5, h6⟩ := allocate_mem_success t m process_id num_units hs
  obtain ⟨h1, h2⟩ := assignAt_eq_take_drop process_id num_units m.blocks i b h3
  have hlen := congrArg List.length h1
  simp only [List.length_append, List.length_cons] at hlen
  refine ⟨i, b, h3, h4, ?_⟩
  rcases assignBlock_cases b process_id num_units with ⟨hsz, e⟩ | ⟨hsz, e⟩
  · left
    have hblocks : (allocate_mem t m process_id num_units).2.blocks =
        m.blocks.take i ++ [⟨b.start_address, num_units, process_id⟩]
          ++ m.blocks.drop (i + 1) := by
      rw [h6, h2, e, ← hsz]
    refine ⟨hsz, hblocks, ?_⟩
    rw [hblocks]
    simp only [List.length_append, List.length_cons, List.length_nil]
    omega
  · right
    have hblocks : (allocate_mem t m process_id num_units).2.blocks =
        m.blocks.take i ++
          [⟨b.start_address, num_units, process_id⟩,
           ⟨b.start_address + num_units, b.size - num_units, -1⟩]
          ++ m.blocks.drop (i + 1) := by
      rw [h6, h2, e]
    refine ⟨by omega, hblocks, ?_⟩
    rw [hblocks]
    simp only [List.length_append, List.length_cons, List.length_nil]
    omega

/-- Instance of C16: Best-Fit `allocate_mem(3, 5)` on `[0,5,free] [5,8,owner 2]
[13,115,free]`. -/
theorem split_postcondition_witness :
    0 < (allocate_mem .bestFit bestFitAfterTests 3 5).1 ∧
    ∃ (i : Nat) (b : MemoryBlock), bestFitAfterTests.blocks[i]? = some b ∧
      b.process_id = -1 ∧
      ((b.size = 5 ∧
        (allocate_mem .bestFit bestFitAfterTests 3 5).2.blocks =
          bestFitAfterTests.blocks.take i ++ [⟨b.start_address, 5, 3⟩]
            ++ bestFitAfterTests.blocks.drop (i + 1) ∧
        (allocate_mem .bestFit bestFitAfterTests 3 5).2.blocks.length =
          bestFitAfterTests.blocks.length) ∨
      (b.size > 5 ∧
        (allocate_mem .bestFit bestFitAfterTests 3 5).2.blocks =
          bestFitAfterTests.blocks.take i ++
            [⟨b.start_address, 5, 3⟩, ⟨b.start_address + 5, b.size - 5, -1⟩]
            ++ bestFitAfterTests.blocks.drop (i + 1) ∧
        (allocate_mem .bestFit bestFitAfterTests 3 5).2.blocks.length =
          bestFitAfterTests.blocks.length + 1)) :=
  ⟨by decide, split_postcondition .bestFit bestFitAfterTests 3 5 (by decide)⟩

/-- C19. Fragment accounting on allocation: for either allocator and every state (in
particular every reachable one), when `allocate_mem(p, n)` succeeds on the free block of
size `s` at position `i`, `fragment_count()` after the call is `fragment_count()` before
the call plus 1 when `s - n` is 1 or 2, and equal to it otherwise: the residual of a split
that leaves 1 or 2 units is counted as one fragment. -/
theorem fragment_accounting (t : Technique) (m : MemoryComponent)
    (process_id num_units : Int) (hs : 0 < (allocate_mem t m process_id num_units).1) :
    ∃ (i : Nat) (b : MemoryBlock), m.blocks[i]? = some b ∧ b.process_id = -1 ∧
      b.size ≥ num_units ∧
      (allocate_mem t m process_id num_units).2.blocks =
        assignAt process_id num_units m.blocks i ∧
      (fragment_count t (allocate_mem t m process_id num_units).2).1 =
        (fragment_count t m).1 +
          (if b.size - num_units = 1 ∨ b.size - num_units = 2 then 1 else 0) := by
  obtain ⟨hn3, _, i, b, h3, h4, h5, h6⟩ := allocate_mem_success t m process_id num_units hs
  refine ⟨i, b, h3, h4, h5, h6, ?_⟩
  have hfc : ∀ s : MemoryComponent, (fragment_count t s).1 = s.fragment_count := by
    intro s; cases t <;> rfl
  rw [hfc, hfc, fragment_count_eq, fragment_count_eq, h6]
  exact fragments_assignAt process_id num_units m.blocks i b h3 hn3 h5

/-- Instance of C19: First-Fit `allocate_mem(3, 3)` on `[0,5,free] [5,8,owner 2]
[13,115,free]` leaves a residual of 2 units. -/
theorem fragment_accounting_witness :
    0 < (allocate_mem .firstFit firstFitAfterTests 3 3).1 ∧
    (fragment_count .firstFit firstFitAfterTests).1 = 0 ∧
    (fragment_count .firstFit (allocate_mem .firstFit firstFitAfterTests 3 3).2).1 = 1 ∧
    ∃ (i : Nat) (b : MemoryBlock), firstFitAfterTests.blocks[i]? = some b ∧
      b.process_id = -1 ∧ b.size ≥ 3 ∧
      (allocate_mem .firstFit firstFitAfterTests 3 3).2.blocks =
        assignAt 3 3 firstFitAfterTests.blocks i ∧
      (fragment_count .firstFit (allocate_mem .firstFit firstFitAfterTests 3 3).2).1 =
        (fragment_count .firstFit firstFitAfterTests).1 +
          (if b.size - 3 = 1 ∨ b.size - 3 = 2 then 1 else 0) :=
  ⟨by decide, by decide, by decide,
    fragment_accounting .firstFit firstFitAfterTests 3 3 (by decide)⟩

/-- C20. Strategy agreement on the same ledger: on every block list that satisfies the
partition invariant, for every process id and every `n`, First-Fit `allocate_mem(p, n)`
succeeds exactly when Best-Fit `allocate_mem(p, n)` succeeds; when both succeed, First-Fit
returns a value no larger than Best-Fit does, and the block chosen by Best-Fit (position
`j`) is no larger than the block chosen by First-Fit (position `i`). -/
theorem strategy_agreement (m : MemoryComponent) (hinv : PartitionInvariant m.blocks)
    (process_id num_units : Int) :
    (0 < (FirstFitMemory.allocate_mem m process_id num_units).1 ↔
      0 < (BestFitMemory.allocate_mem m process_id num_units).1) ∧
    (0 < (FirstFitMemory.allocate_mem m process_id num_units).1 →
      0 < (BestFitMemory.allocate_mem m process_id num_units).1 →
      (FirstFitMemory.allocate_mem m process_id num_units).1 ≤
        (BestFitMemory.allocate_mem m process_id num_units).1 ∧
      ∃ (i j : Nat) (bF bB : MemoryBlock),
        m.blocks[i]? = some bF ∧ m.blocks[j]? = some bB ∧
        (FirstFitMemory.allocate_mem m process_id num_units).1 = (i : Int) + 1 ∧
        (FirstFitMemory.allocate_mem m process_id num_units).2.blocks =
          assignAt process_id num_units m.blocks i ∧
        (BestFitMemory.allocate_mem m process_id num_units).2.blocks =
          assignAt process_id num_units m.blocks j ∧
        bB.size ≤ bF.size) := by
  obtain ⟨_, _, hpos, _, _, hsum⟩ := hinv
  have hsize : ∀ b ∈ m.blocks, b.size ≤ 128 := by
    intro b hb
    have := size_le_sum m.blocks hpos b hb
    omega
  have hneg : ¬ (0 : Int) < -1 := by decide
  rcases firstFit_allocate_mem_cases m process_id num_units with
    ⟨hF, hFr⟩ | ⟨hF1, hF2, i, bF, hF3, hF4, hF5, _, hF7⟩
  · rcases bestFit_allocate_mem_cases m process_id num_units with
      ⟨hB, _⟩ | ⟨hB1, hB2, j, bB, hB3, hB4, hB5, _, _, _⟩
    · rw [hF, hB]
      exact ⟨Iff.rfl, fun h => absurd h hneg⟩
    · exfalso
      rcases hFr with h | h | h
      · omega
      · omega
      · exact h bB (List.getElem?_mem hB3) ⟨hB4, hB5⟩
  · rcases bestFit_allocate_mem_cases m process_id num_units with
      ⟨_, hBr⟩ | ⟨_, _, j, bB, hB3, _, _, hB6, _, hB8⟩
    · exfalso
      rcases hBr with h | h | h
      · omega
      · omega
      · have hmem := List.getElem?_mem hF3
        have := hsize bF hmem
        exact h bF hmem ⟨hF4, hF5, by omega⟩
    · rw [hF7, hB8]
      have hi : i < m.blocks.length := by
        by_contra hge
        rw [List.getElem?_eq_none (by omega)] at hF3
        simp at hF3
      have hlen : (0 : Int) < (m.blocks.length : Int) := by omega
      have hret : (0 : Int) < ((i + 1 : Nat) : Int) := by omega
      refine ⟨⟨fun _ => hlen, fun _ => hret⟩, fun _ _ => ⟨?_, i, j, bF, bB, hF3, hB3, ?_, rfl, rfl,
        hB6 i bF hF3 hF4 hF5⟩⟩
      · show ((i + 1 : Nat) : Int) ≤ (m.blocks.length : Int)
        omega
      · show ((i + 1 : Nat) : Int) = (i : Int) + 1
        omega

/-- Instance of C20: `allocate_mem(3, 6)` on `[0,5,free] [5,8,owner 2] [13,115,free]`. -/
theorem strategy_agreement_witness :
    PartitionInvariant firstFitAfterTests.blocks ∧
    (0 < (FirstFitMemory.allocate_mem firstFitAfterTests 3 6).1 ↔
      0 < (BestFitMemory.allocate_mem firstFitAfterTests 3 6).1) ∧
    (0 < (FirstFitMemory.allocate_mem firstFitAfterTests 3 6).1 →
      0 < (BestFitMemory.allocate_mem firstFitAfterTests 3 6).1 →
      (FirstFitMemory.allocate_mem firstFitAfterTests 3 6).1 ≤
        (BestFitMemory.allocate_mem firstFitAfterTests 3 6).1 ∧
      ∃ (i j : Nat) (bF bB : MemoryBlock),
        firstFitAfterTests.blocks[i]? = some bF ∧ firstFitAfterTests.blocks[j]? = some bB ∧
        (FirstFitMemory.allocate_mem firstFitAfterTests 3 6).1 = (i : Int) + 1 ∧
        (FirstFitMemory.allocate_mem firstFitAfterTests 3 6).2.blocks =
          assignAt 3 6 firstFitAfterTests.blocks i ∧
        (BestFitMemory.allocate_mem firstFitAfterTests 3 6).2.blocks =
          assignAt 3 6 firstFitAfterTests.blocks j ∧
        bB.size ≤ bF.size) :=
  ⟨partitionInvariant_of_tiles _ (reachable_tiles _ _ firstFitAfterTests_reachable),
    strategy_agreement firstFitAfterTests
      (partitionInvariant_of_tiles _ (reachable_tiles _ _ firstFitAfterTests_reachable)) 3 6⟩

/-- C14 as stated fails. `allocate_mem` does not look at the owners already in the list:
First-Fit `allocate_mem(1, 5)` twice on a fresh allocator succeeds twice and leaves
`[0,5,owner 1] [5,5,owner 1] [10,118,free]`, two blocks owned by process 1. -/
theorem owner_unique_violated :
    Reachable .firstFit
      (runCalls .firstFit MemoryComponent.fresh [.allocate 1 5, .allocate 1 5]).2 ∧
    (runCalls .firstFit MemoryComponent.fresh [.allocate 1 5, .allocate 1 5]).1 = [1, 2] ∧
    (runCalls .firstFit MemoryComponent.fresh [.allocate 1 5, .allocate 1 5]).2.blocks
      = [⟨0, 5, 1⟩, ⟨5, 5, 1⟩, ⟨10, 118, -1⟩] ∧
    ¬ OwnerUnique
      (runCalls .firstFit MemoryComponent.fresh [.allocate 1 5, .allocate 1 5]).2.blocks := by
  refine ⟨reachable_runCalls _ _ _ Reachable.fresh (by decide), by decide, by decide, ?_⟩
  intro h
  have h01 := h 0 1 ⟨0, 5, 1⟩ ⟨5, 5, 1⟩ (by decide) (by decide) (by decide) rfl
  exact absurd h01 (by decide)

/-- C14, amended. In every state reachable from a freshly constructed allocator (either
strategy) by `allocate_mem` / `deallocate_mem` calls in which `allocate_mem(p, n)` is only
issued while no block of the list is owned by `p`, no process id is the owner of two
different blocks of the list. -/
theorem owner_unique (t : Technique) (m : MemoryComponent) (h : ReachableDistinct t m) :
    OwnerUnique m.blocks :=
  ownerUnique_of_distinctOwners m.blocks (reachableDistinct_distinctOwners t m h)

/-- Instance of the amended C14 on the Best-Fit state after `allocate_mem(1, 5)`,
`allocate_mem(2, 8)`, `deallocate_mem(1)`. -/
theorem owner_unique_witness :
    ReachableDistinct .bestFit bestFitAfterTests ∧ OwnerUnique bestFitAfterTests.blocks :=
  ⟨ReachableDistinct.deallocate _ 1
      (ReachableDistinct.allocate _ 2 8
        (ReachableDistinct.allocate _ 1 5 ReachableDistinct.fresh (by decide) (by decide)
          (by decide))
        (by decide) (by decide) (by decide))
      (by decide) (by decide),
    owner_unique .bestFit bestFitAfterTests
      (ReachableDistinct.deallocate _ 1
        (ReachableDistinct.allocate _ 2 8
          (ReachableDistinct.allocate _ 1 5 ReachableDistinct.fresh (by decide) (by decide)
            (by decide))
          (by decide) (by decide) (by decide))
        (by decide) (by decide))⟩

/-- C17. `merge_adjacent_free_blocks` produces the maximal-free-run partition: on every
block list the result has no two adjacent free blocks; the blocks that have an owner
appear unchanged and in the same order; every maximal run of consecutive free blocks is
replaced by one free block that starts where the run starts and whose size is the sum of
the sizes of the run (the result is `maximalFreeRuns` of the list); and the total size is
conserved. -/
theorem merge_maximal_free_runs (bs : List MemoryBlock) :
    CoalescingInvariant (merge_adjacent_free_blocks bs) ∧
    (merge_adjacent_free_blocks bs).filter (fun b => decide (b.process_id ≠ -1)) =
      bs.filter (fun b => decide (b.process_id ≠ -1)) ∧
    merge_adjacent_free_blocks bs = maximalFreeRuns bs ∧
    ((merge_adjacent_free_blocks bs).map MemoryBlock.size).sum =
      (bs.map MemoryBlock.size).sum := by
  refine ⟨noAdjacentFree_index _ (noAdjacentFree_merge bs), ?_,
    merge_eq_maximalFreeRuns_aux bs.length bs (le_refl _), ?_⟩
  · cases bs with
    | nil => rfl
    | cons b rest => exact mergeLoop_owned_blocks rest b
  · cases bs with
    | nil => rfl
    | cons b rest => exact mergeLoop_sum rest b

end OS2
